import Mathlib

/-!
# A shallow embedding of the SokobanQLearning core

This file translates the Sokoban game engine (`src/include/Sokoban.hpp`)
and the Q-learning trainer (`src/include/SokobanQLearning.hpp`) into Lean
definitions and proves properties of the translation.

Conventions of the embedding:
* C++ machine integers become `Int`/`Nat`; the `std::bitset<StateBits>`
  state key becomes a `Nat` reduced modulo `2 ^ StateBits` wherever the
  C++ truncates.
* `std::set<Pos>` becomes a list kept sorted by the `std::pair` order
  (`posLt`); `std::unordered_set` becomes a list used only for membership.
* The fields of `Sokoban::Game` that the constructor establishes once and
  never mutates are collected in a `Board` structure; the mutable
  simulation fields stay in `Game`.  Each member function is translated
  as a function of the board plus the mutable data it actually reads.
* The mutable `vis` sets threaded by reference through `BoxStuck` and
  `CanPushAny` become explicit state; the C++ recursions terminate because
  every path visits distinct (position, axis) pairs, which in Lean is
  expressed with a fuel argument large enough that exhaustion is
  unreachable on the states the engine produces.
* Exceptions become `Except String`; functions the C++ declares as
  non-throwing are total Lean functions.
-/

namespace Sokoban

/-- Direction bit values from `Sokoban.hpp`. -/
def NoDirection : Nat := 0

/-- `Up = 0b0001`. -/
def Up : Nat := 1

/-- `Left = 0b0010`. -/
def Left : Nat := 2

/-- `Right = 0b0100`. -/
def Right : Nat := 4

/-- `Down = 0b1000`. -/
def Down : Nat := 8

/-- Cell classification bits from `Sokoban.hpp`. -/
def IsWall : Nat := 0

/-- `IsFloor = 0b0001`. -/
def IsFloor : Nat := 1

/-- `IsGoal = 0b0010`. -/
def IsGoal : Nat := 2

/-- `IsBox = 0b0100`. -/
def IsBox : Nat := 4

/-- `IsPlayer = 0b1000`. -/
def IsPlayer : Nat := 8

/-- A board coordinate, `std::pair<MazeInt, MazeInt>` (row, column). -/
abbrev Pos := Int × Int

/-- The strict order of `std::pair<MazeInt, MazeInt>`: lexicographic. -/
def posLt (a b : Pos) : Bool :=
  a.1 < b.1 || (a.1 = b.1 && a.2 < b.2)

/-- `std::set` insertion on the sorted-list representation: inserting an
element already present leaves the set unchanged. -/
def insertPos (p : Pos) : List Pos → List Pos
  | [] => [p]
  | q :: qs =>
    if posLt p q then p :: q :: qs
    else if p = q then q :: qs
    else q :: insertPos p qs

/-- `std::set::erase` of a found element on the sorted-list representation. -/
def erasePos (p : Pos) : List Pos → List Pos
  | [] => []
  | q :: qs => if p = q then qs else q :: erasePos p qs

/-- `Sokoban::Movement`: the (row, column) displacement of a direction;
`(0, 0)` for every value that is not one of the four unit directions. -/
def Movement (d : Nat) : Int × Int :=
  if d = Up then (-1, 0)
  else if d = Left then (0, -1)
  else if d = Right then (0, 1)
  else if d = Down then (1, 0)
  else (0, 0)

/-- The fields of `Sokoban::Game<StateBits>` that the constructor
establishes and no member function ever mutates: dimensions, the floor
cells in scan order (the `FloorIndex` table), the goal set, the encoding
width, and the initial player/box layout. -/
structure Board where
  StateBits : Nat
  Height : Int
  Width : Int
  floors : List Pos
  GoalPos : List Pos
  FloorBits : Nat
  PlayerPos0 : Pos
  BoxPos0 : List Pos
deriving Repr, DecidableEq

/-- The mutable state of `Sokoban::Game<StateBits>`.  The fields
`Succeeded`, `Failed`, `Directions`, `Finished` and `State` are the
cached values recomputed by `UpdateData` after every accepted move. -/
structure Game where
  board : Board
  Succeeded : Bool
  Failed : Bool
  Directions : Nat
  Finished : Nat
  State : Nat
  TimeElapsed : Nat
  PlayerPos : Pos
  BoxPos : List Pos
  StateHistory : List Nat
deriving Repr, DecidableEq

/-- The `FloorIndex` table: the scan-order index of a floor cell, `-1`
for every other cell (the constructor fills the table from the `floor`
queue in scan order). -/
def floorIdx (floors : List Pos) (p : Pos) : Int :=
  if p ∈ floors then (floors.indexOf p : Int) else -1

/-- `Game::CheckFloor`. -/
def CheckFloor (b : Board) (line col : Int) : Bool :=
  if line < 0 || b.Height ≤ line then false
  else if col < 0 || b.Width ≤ col then false
  else 0 ≤ floorIdx b.floors (line, col)

/-- `Maze[p] & IsBox` after `UpdateData` rebuilt the maze: membership in
the current box set. -/
def hasBox (boxes : List Pos) (p : Pos) : Bool := p ∈ boxes

/-- The maze cell value rebuilt by `UpdateData` (including the player bit,
which `UpdateData` ORs in last). -/
def cellVal (b : Board) (boxes : List Pos) (player : Pos) (p : Pos) : Nat :=
  (if CheckFloor b p.1 p.2 then IsFloor else 0) |||
  (if p ∈ b.GoalPos then IsGoal else 0) |||
  (if p ∈ boxes then IsBox else 0) |||
  (if p = player then IsPlayer else 0)

/-- `Game::CheckDirection` with `can_push_box = false`: the destination
must be floor and must not hold a box. -/
def CheckDirectionNP (b : Board) (boxes : List Pos) (d : Nat) (line col : Int) : Bool :=
  let mv := Movement d
  if !CheckFloor b (line + mv.1) (col + mv.2) then false
  else if hasBox boxes (line + mv.1, col + mv.2) then false
  else true

/-- `Game::CheckDirection`: the destination must be floor, and a box on it
may be pushed (one cell further must be box-free floor) only when
`can_push_box` holds. -/
def CheckDirection (b : Board) (boxes : List Pos) (d : Nat) (line col : Int)
    (can_push_box : Bool) : Bool :=
  let mv := Movement d
  if !CheckFloor b (line + mv.1) (col + mv.2) then false
  else if hasBox boxes (line + mv.1, col + mv.2) then
    if can_push_box then CheckDirectionNP b boxes d (line + mv.1) (col + mv.2) else false
  else true

/-- The legal-direction bitmask loop of `UpdateData`. -/
def computeDirections (b : Board) (boxes : List Pos) (player : Pos) : Nat :=
  [Up, Left, Right, Down].foldl
    (fun acc d => if CheckDirection b boxes d player.1 player.2 true then acc ||| d else acc)
    0

/-- The `Finished` count of `UpdateData`: boxes whose maze cell is exactly
`IsFloor | IsGoal | IsBox` (the player bit is ORed in only afterwards). -/
def countFinished (b : Board) (boxes : List Pos) : Nat :=
  (boxes.filter (fun bx => CheckFloor b bx.1 bx.2 && decide (bx ∈ b.GoalPos))).length

/-- The box loop of the state encoding in `UpdateData`: each box's floor
index is placed `FloorBits * offset` bits up, with offsets 1, 2, … in the
box set's ascending iteration order; every write truncates to
`StateBits` bits exactly as `std::bitset` does. -/
def encodeBoxes (b : Board) : Nat → Nat → List Pos → Nat
  | acc, _, [] => acc
  | acc, off, bx :: bxs =>
    encodeBoxes b
      (acc ||| ((floorIdx b.floors bx).toNat % 2 ^ b.StateBits) * 2 ^ (b.FloorBits * off) % 2 ^ b.StateBits)
      (off + 1) bxs

/-- The full encoded state computed by `UpdateData`: the player's floor
index in the low field, then the boxes. -/
def computeState (b : Board) (player : Pos) (boxes : List Pos) : Nat :=
  encodeBoxes b ((floorIdx b.floors player).toNat % 2 ^ b.StateBits) 1 boxes

/-- `Game::BoxStuck` with the by-reference `vis` set made explicit.  The
C++ recursion terminates because the pairs on any recursion path are
pairwise distinct, so a fuel of `2 * (number of boxes) + 2` can never run
out when started from a box position with an empty `vis`; the
out-of-fuel branch is unreachable there. -/
def BoxStuck (b : Board) (boxes : List Pos) :
    Nat → Int → Int → Bool → List (Pos × Bool) → Bool × List (Pos × Bool)
  | 0, _, _, _, vis => (true, vis)
  | fuel + 1, line, col, is_horizontal, vis =>
    let current : Pos × Bool := ((line, col), is_horizontal)
    if current ∈ vis then (true, vis.erase current)
    else
      let vis := current :: vis
      let res :=
        if is_horizontal then
          if !CheckFloor b line (col - 1) || !CheckFloor b line (col + 1) then (true, vis)
          else if hasBox boxes (line, col - 1) then
            match BoxStuck b boxes fuel line (col - 1) (!is_horizontal) vis with
            | (true, vis) => (true, vis)
            | (false, vis) =>
              if hasBox boxes (line, col + 1) then
                BoxStuck b boxes fuel line (col + 1) (!is_horizontal) vis
              else (false, vis)
          else if hasBox boxes (line, col + 1) then
            BoxStuck b boxes fuel line (col + 1) (!is_horizontal) vis
          else (false, vis)
        else
          if !CheckFloor b (line - 1) col || !CheckFloor b (line + 1) col then (true, vis)
          else if hasBox boxes (line - 1, col) then
            match BoxStuck b boxes fuel (line - 1) col (!is_horizontal) vis with
            | (true, vis) => (true, vis)
            | (false, vis) =>
              if hasBox boxes (line + 1, col) then
                BoxStuck b boxes fuel (line + 1) col (!is_horizontal) vis
              else (false, vis)
          else if hasBox boxes (line + 1, col) then
            BoxStuck b boxes fuel (line + 1) col (!is_horizontal) vis
          else (false, vis)
      (res.1, res.2.erase current)

/-- One scan loop of `Game::WallStuck` along a row (`movement.first ≠ 0`):
walk from `p` by `delta` while on floor; finding floor on the wall side
(`line - mv1`) aborts with `none` (the C++ `return false`); otherwise the
box/goal counters accumulate.  Fuel bounds the walk, which the C++
bounds by the board width. -/
def scanRow (b : Board) (boxes : List Pos) (line : Int) (mv1 : Int) (delta : Int) :
    Nat → Int → Nat → Nat → Option (Nat × Nat)
  | 0, _, bc, gc => some (bc, gc)
  | fuel + 1, p, bc, gc =>
    if CheckFloor b line p then
      if CheckFloor b (line - mv1) p then none
      else
        scanRow b boxes line mv1 delta fuel (p + delta)
          (bc + if hasBox boxes (line, p) then 1 else 0)
          (gc + if (line, p) ∈ b.GoalPos then 1 else 0)
    else some (bc, gc)

/-- One scan loop of `Game::WallStuck` along a column
(`movement.first = 0`). -/
def scanCol (b : Board) (boxes : List Pos) (col : Int) (mv2 : Int) (delta : Int) :
    Nat → Int → Nat → Nat → Option (Nat × Nat)
  | 0, _, bc, gc => some (bc, gc)
  | fuel + 1, p, bc, gc =>
    if CheckFloor b p col then
      if CheckFloor b p (col - mv2) then none
      else
        scanCol b boxes col mv2 delta fuel (p + delta)
          (bc + if hasBox boxes (p, col) then 1 else 0)
          (gc + if (p, col) ∈ b.GoalPos then 1 else 0)
    else some (bc, gc)

/-- `Game::WallStuck`. -/
def WallStuck (b : Board) (boxes : List Pos) (line col : Int) (side : Nat) : Bool :=
  let bc0 : Nat := if hasBox boxes (line, col) then 1 else 0
  let gc0 : Nat := if (line, col) ∈ b.GoalPos then 1 else 0
  let mv := Movement side
  let fuel := b.Height.toNat + b.Width.toNat + 2
  if mv.1 ≠ 0 then
    match scanRow b boxes line mv.1 (-1) fuel (col - 1) bc0 gc0 with
    | none => false
    | some (bc, gc) =>
      match scanRow b boxes line mv.1 1 fuel (col + 1) bc gc with
      | none => false
      | some (bc, gc) => gc < bc
  else
    match scanCol b boxes col mv.2 (-1) fuel (line - 1) bc0 gc0 with
    | none => false
    | some (bc, gc) =>
      match scanCol b boxes col mv.2 1 fuel (line + 1) bc gc with
      | none => false
      | some (bc, gc) => gc < bc

/-- `Game::CanPushAny` with the by-reference `vis` set made explicit.
The `vis` set only grows along floor cells, so a fuel of
`(number of floor cells) + 2` can never run out. -/
def CanPushAny (b : Board) (boxes : List Pos) :
    Nat → Int → Int → List Pos → Bool × List Pos
  | 0, _, _, vis => (true, vis)
  | fuel + 1, line, col, vis =>
    if (line, col) ∈ vis then (false, vis)
    else
      let vis := (line, col) :: vis
      [Up, Left, Right, Down].foldl
        (fun acc d =>
          let mv := Movement d
          if CheckDirection b boxes d line col false then
            if acc.1 then acc
            else CanPushAny b boxes fuel (line + mv.1) (col + mv.2) acc.2
          else (acc.1 || CheckDirection b boxes d line col true, acc.2))
        (false, vis)

/-- The per-box body of the loop in `Game::CheckFailed`: true when this
box makes the position provably dead. -/
def boxTrap (b : Board) (boxes : List Pos) (player : Pos) (bx : Pos) : Bool :=
  let fuel := 2 * boxes.length + 2
  let stuck_vertical := (BoxStuck b boxes fuel bx.1 bx.2 false []).1
  let stuck_horizontal := (BoxStuck b boxes fuel bx.1 bx.2 true []).1
  if cellVal b boxes player bx ≠ (IsFloor ||| IsGoal ||| IsBox) then
    if stuck_vertical && stuck_horizontal then true
    else if stuck_vertical &&
        ((!CheckFloor b (bx.1 - 1) bx.2 && WallStuck b boxes bx.1 bx.2 Down) ||
         (!CheckFloor b (bx.1 + 1) bx.2 && WallStuck b boxes bx.1 bx.2 Up)) then true
    else if stuck_horizontal &&
        ((!CheckFloor b bx.1 (bx.2 - 1) && WallStuck b boxes bx.1 bx.2 Right) ||
         (!CheckFloor b bx.1 (bx.2 + 1) && WallStuck b boxes bx.1 bx.2 Left)) then true
    else false
  else false

/-- `Game::CheckFailed`; `fin` and `dirs` are the `Finished` and
`Directions` values `UpdateData` has just recomputed, which the C++
reads from the member fields. -/
def CheckFailed (b : Board) (boxes : List Pos) (player : Pos) (fin dirs : Nat) : Bool :=
  if fin = b.BoxPos0.length then false
  else if dirs = 0 then true
  else if boxes.any (fun bx => boxTrap b boxes player bx) then true
  else !(CanPushAny b boxes (b.floors.length + 2) player.1 player.2 []).1

/-- `Game::UpdateData`: recompute the cached `Finished`, `State`,
`Directions`, `Succeeded` and `Failed` fields from the player and box
positions. -/
def UpdateData (g : Game) : Game :=
  let fin := countFinished g.board g.BoxPos
  let dirs := computeDirections g.board g.BoxPos g.PlayerPos
  { g with
    Finished := fin
    State := computeState g.board g.PlayerPos g.BoxPos
    Directions := dirs
    Succeeded := decide (fin = g.board.BoxPos0.length)
    Failed := CheckFailed g.board g.BoxPos g.PlayerPos fin dirs }

/-- `std::unordered_set` insertion for the state history. -/
def insertState (s : Nat) (h : List Nat) : List Nat :=
  if s ∈ h then h else s :: h

/-- `Game::DoRestart`. -/
def DoRestart (g : Game) : Game :=
  UpdateData { g with
    TimeElapsed := 0
    StateHistory := []
    PlayerPos := g.board.PlayerPos0
    BoxPos := g.board.BoxPos0 }

/-- `Game::DoMove` (also the public `Game::Move`): returns the updated
game and the `pushed` flag. -/
def DoMove (g : Game) (direction : Nat) : Game × Bool :=
  if g.Directions &&& direction = 0 then (g, false)
  else
    let mv := Movement direction
    if mv.1 = mv.2 then (g, false)
    else
      let g := { g with
        TimeElapsed := g.TimeElapsed + 1
        StateHistory := insertState g.State g.StateHistory }
      let newPlayer : Pos := (g.PlayerPos.1 + mv.1, g.PlayerPos.2 + mv.2)
      let g := { g with PlayerPos := newPlayer }
      if newPlayer ∈ g.BoxPos then
        let boxDest : Pos := (newPlayer.1 + mv.1, newPlayer.2 + mv.2)
        (UpdateData { g with BoxPos := insertPos boxDest (erasePos newPlayer g.BoxPos) }, true)
      else
        (UpdateData g, false)

/-- The running state of the constructor's character scan. -/
structure ScanSt where
  line : Int
  col : Int
  Height : Int
  Width : Int
  floors : List Pos
  goals : List Pos
  boxes : List Pos
  player : Pos
deriving Repr, DecidableEq

/-- The constructor's initial scan state: `line = 0`, `col = -1`,
`Height = 1`, `Width = 0`, `PlayerPos0 = (-1, -1)`. -/
def initScan : ScanSt :=
  { line := 0, col := -1, Height := 1, Width := 0
    floors := [], goals := [], boxes := [], player := (-1, -1) }

/-- One character of the constructor's scan loop. -/
def scanChar (s : ScanSt) (c : Char) : Except String ScanSt :=
  if c = '\r' then .ok s
  else if c = '\n' then
    let line := s.line + 1
    if 125 ≤ line then .error "Maze Too Large"
    else .ok { s with
      line := line, col := -1
      Height := if s.Height ≤ line then line + 1 else s.Height }
  else
    let col := s.col + 1
    if 125 ≤ col then .error "Maze Too Large"
    else
      let s := { s with col := col, Width := if s.Width ≤ col then col + 1 else s.Width }
      let p : Pos := (s.line, col)
      if c = '.' then .ok { s with floors := s.floors ++ [p] }
      else if c = '*' then
        if 0 ≤ s.player.1 + s.player.2 then .error "Too Many Players"
        else .ok { s with floors := s.floors ++ [p], player := p }
      else if c = '$' then
        .ok { s with floors := s.floors ++ [p], goals := insertPos p s.goals }
      else if c = '&' then
        .ok { s with floors := s.floors ++ [p], boxes := insertPos p s.boxes }
      else if c = '+' then
        if 0 ≤ s.player.1 + s.player.2 then .error "Too Many Players"
        else .ok { s with floors := s.floors ++ [p], player := p, goals := insertPos p s.goals }
      else if c = '@' then
        .ok { s with floors := s.floors ++ [p], boxes := insertPos p s.boxes, goals := insertPos p s.goals }
      else .ok s

/-- The constructor's scan loop over the whole maze text. -/
def scanMaze (s : ScanSt) : List Char → Except String ScanSt
  | [] => .ok s
  | c :: cs =>
    match scanChar s c with
    | .error e => .error e
    | .ok s => scanMaze s cs

/-- The body of the `FloorBits` loop of the constructor, with the number
of remaining iterations bounded by a structural fuel (`n / 2 < n` for
positive `n`, so a fuel of `n` always suffices and the exhaustion branch
is unreachable). -/
def bitsForAux : Nat → Nat → Nat
  | 0, _ => 0
  | _, 0 => 0
  | fuel + 1, n + 1 => bitsForAux fuel ((n + 1) / 2) + 1

/-- The `FloorBits` loop of the constructor: the number of halvings that
send `floor.size() - 1` to zero. -/
def bitsFor (n : Nat) : Nat := bitsForAux n n

/-- The constructor's stripping of leading and trailing newlines. -/
def trimMaze (cs : List Char) : List Char :=
  ((cs.dropWhile (fun c => c = '\n')).reverse.dropWhile (fun c => c = '\n')).reverse

/-- `Game::Game(std::string maze)` for key type `std::bitset<sb>`:
either a typed error or the constructed game (a final `DoRestart`
initialises the mutable state, exactly as in the C++). -/
def construct (sb : Nat) (maze : List Char) : Except String Game :=
  match scanMaze initScan (trimMaze maze) with
  | .error e => .error e
  | .ok s =>
    if s.player.1 + s.player.2 = -2 then .error "No Player"
    else if s.boxes = [] then .error "No Box"
    else if s.goals.length < s.boxes.length then .error "Too Few Goals"
    else
      let fb := bitsFor (s.floors.length - 1)
      if sb < fb * (s.boxes.length + 1) then .error "Maze Too Large"
      else
        let b : Board :=
          { StateBits := sb
            Height := s.Height, Width := s.Width
            floors := s.floors, GoalPos := s.goals, FloorBits := fb
            PlayerPos0 := s.player, BoxPos0 := s.boxes }
        let base : Game :=
          { board := b
            Succeeded := false, Failed := false, Directions := 0
            Finished := 0, State := 0, TimeElapsed := 0
            PlayerPos := s.player, BoxPos := s.boxes, StateHistory := [] }
        .ok (DoRestart base)

/-- The states reachable from a game by any sequence of `Move` and
`Restart` calls. -/
inductive Steps : Game → Game → Prop
  | refl (g : Game) : Steps g g
  | move (g₁ g₂ : Game) (d : Nat) : Steps g₁ g₂ → Steps g₁ (DoMove g₂ d).1
  | restart (g₁ g₂ : Game) : Steps g₁ g₂ → Steps g₁ (DoRestart g₂)

/-- A list sorted strictly by the `std::pair` order: the canonical
iteration order of a `std::set<Pos>`. -/
def SortedPos (l : List Pos) : Prop :=
  l.Pairwise (fun a b => posLt a b = true)

theorem posLt_iff (a b : Pos) :
    posLt a b = true ↔ a.1 < b.1 ∨ (a.1 = b.1 ∧ a.2 < b.2) := by
  simp [posLt]

theorem posLt_irrefl (a : Pos) : posLt a a ≠ true := by
  simp [posLt_iff]

theorem posLt_ne {a b : Pos} (h : posLt a b = true) : a ≠ b := by
  rintro rfl
  exact posLt_irrefl a h

theorem posLt_asymm {a b : Pos} (h : posLt a b = true) : posLt b a ≠ true := by
  rcases a with ⟨a1, a2⟩
  rcases b with ⟨b1, b2⟩
  simp only [ne_eq, posLt_iff] at h ⊢
  omega

theorem posLt_trans {a b c : Pos} (h₁ : posLt a b = true) (h₂ : posLt b c = true) :
    posLt a c = true := by
  rcases a with ⟨a1, a2⟩
  rcases b with ⟨b1, b2⟩
  rcases c with ⟨c1, c2⟩
  simp only [posLt_iff] at h₁ h₂ ⊢
  omega

theorem posLt_trichotomy (a b : Pos) :
    posLt a b = true ∨ a = b ∨ posLt b a = true := by
  rcases a with ⟨a1, a2⟩
  rcases b with ⟨b1, b2⟩
  simp only [posLt_iff, Prod.mk.injEq]
  omega

theorem sortedPos_nodup {l : List Pos} (h : SortedPos l) : l.Nodup :=
  h.imp (fun hab => posLt_ne hab)

theorem mem_insertPos {q p : Pos} {l : List Pos} :
    q ∈ insertPos p l ↔ q = p ∨ q ∈ l := by
  induction l with
  | nil => simp [insertPos]
  | cons a l ih =>
    simp only [insertPos]
    split
    · simp [or_comm, or_left_comm]
    · split
      · rename_i h1 h2
        subst h2
        simp only [List.mem_cons]
        tauto
      · simp only [List.mem_cons, ih]
        tauto

theorem insertPos_sorted {p : Pos} {l : List Pos} (h : SortedPos l) :
    SortedPos (insertPos p l) := by
  induction l with
  | nil => simp [insertPos, SortedPos]
  | cons a l ih =>
    rcases List.pairwise_cons.mp h with ⟨ha, hl⟩
    simp only [insertPos]
    split
    · rename_i hpa
      refine List.pairwise_cons.mpr ⟨?_, h⟩
      intro b hb
      rcases List.mem_cons.mp hb with rfl | hb
      · exact hpa
      · exact posLt_trans hpa (ha b hb)
    · split
      · exact h
      · rename_i hpa hne
        refine List.pairwise_cons.mpr ⟨?_, ih hl⟩
        intro b hb
        rcases mem_insertPos.mp hb with rfl | hb
        · rcases posLt_trichotomy a b with h1 | h1 | h1
          · exact h1
          · exact absurd h1.symm hne
          · exact absurd h1 (fun hh => hpa hh)
        · exact ha b hb

theorem length_insertPos_of_not_mem {p : Pos} {l : List Pos} (h : p ∉ l) :
    (insertPos p l).length = l.length + 1 := by
  induction l with
  | nil => simp [insertPos]
  | cons a l ih =>
    simp only [List.mem_cons, not_or] at h
    simp only [insertPos]
    split
    · simp
    · split
      · exact absurd ‹p = a› h.1
      · simp [ih h.2]

theorem erasePos_sublist (p : Pos) (l : List Pos) : (erasePos p l).Sublist l := by
  induction l with
  | nil => simp [erasePos]
  | cons a l ih =>
    simp only [erasePos]
    split
    · exact (List.sublist_cons_self a l)
    · exact ih.cons₂ a

theorem erasePos_sorted {p : Pos} {l : List Pos} (h : SortedPos l) :
    SortedPos (erasePos p l) :=
  h.sublist (erasePos_sublist p l)

theorem length_erasePos_of_mem {p : Pos} {l : List Pos} (h : p ∈ l) :
    (erasePos p l).length + 1 = l.length := by
  induction l with
  | nil => simp at h
  | cons a l ih =>
    simp only [erasePos]
    split
    · simp
    · rename_i hne
      rcases List.mem_cons.mp h with rfl | hm
      · exact absurd rfl hne
      · simp [ih hm]

theorem mem_erasePos {q p : Pos} {l : List Pos} (h : q ∈ erasePos p l) : q ∈ l :=
  (erasePos_sublist p l).mem h

theorem mem_erasePos_of_ne {q p : Pos} {l : List Pos} (hne : q ≠ p) (h : q ∈ l) :
    q ∈ erasePos p l := by
  induction l with
  | nil => simp at h
  | cons a l ih =>
    simp only [erasePos]
    split
    · rename_i hpa
      subst hpa
      rcases List.mem_cons.mp h with rfl | hm
      · exact absurd rfl hne
      · exact hm
    · rcases List.mem_cons.mp h with rfl | hm
      · exact List.mem_cons_self q _
      · exact List.mem_cons_of_mem a (ih hm)

theorem not_mem_erasePos_self {p : Pos} {l : List Pos} (h : l.Nodup) :
    p ∉ erasePos p l := by
  induction l with
  | nil => simp [erasePos]
  | cons a l ih =>
    rcases List.nodup_cons.mp h with ⟨ha, hl⟩
    simp only [erasePos]
    split
    · rename_i hpa
      subst hpa
      exact ha
    · rename_i hne
      intro hm
      rcases List.mem_cons.mp hm with rfl | hm
      · exact hne rfl
      · exact ih hl hm

/-- The invariant of all reachable game states: the box set is a sorted
duplicate-free list of floor cells whose size equals the initial box
count, the player stands on a box-free floor cell, and the five cached
fields hold the values `UpdateData` computes from the positions. -/
structure Inv (g : Game) : Prop where
  box0_sorted : SortedPos g.board.BoxPos0
  box0_floor : ∀ bx ∈ g.board.BoxPos0, CheckFloor g.board bx.1 bx.2 = true
  player0_floor : CheckFloor g.board g.board.PlayerPos0.1 g.board.PlayerPos0.2 = true
  player0_not_box : g.board.PlayerPos0 ∉ g.board.BoxPos0
  box_sorted : SortedPos g.BoxPos
  box_len : g.BoxPos.length = g.board.BoxPos0.length
  box_floor : ∀ bx ∈ g.BoxPos, CheckFloor g.board bx.1 bx.2 = true
  player_floor : CheckFloor g.board g.PlayerPos.1 g.PlayerPos.2 = true
  player_not_box : g.PlayerPos ∉ g.BoxPos
  fin_eq : g.Finished = countFinished g.board g.BoxPos
  dir_eq : g.Directions = computeDirections g.board g.BoxPos g.PlayerPos
  st_eq : g.State = computeState g.board g.PlayerPos g.BoxPos
  suc_eq : g.Succeeded = decide (g.Finished = g.board.BoxPos0.length)
  fail_eq : g.Failed = CheckFailed g.board g.BoxPos g.PlayerPos g.Finished g.Directions

theorem doMove_board (g : Game) (d : Nat) : (DoMove g d).1.board = g.board := by
  by_cases h0 : g.Directions &&& d = 0
  · simp only [DoMove, if_pos h0]
  · by_cases hmv : (Movement d).1 = (Movement d).2
    · simp only [DoMove, if_neg h0, if_pos hmv]
    · by_cases hmem : (g.PlayerPos.1 + (Movement d).1, g.PlayerPos.2 + (Movement d).2) ∈ g.BoxPos
      · simp only [DoMove, if_neg h0, if_neg hmv, hmem, if_true]
        rfl
      · simp only [DoMove, if_neg h0, if_neg hmv, hmem, if_false]
        rfl

theorem doRestart_board (g : Game) : (DoRestart g).board = g.board := rfl

/-- `Move` and `Restart` never change the constructor-established data. -/
theorem steps_board {g₀ g : Game} (h : Steps g₀ g) : g.board = g₀.board := by
  induction h with
  | refl => rfl
  | move g₂ d hs ih => rw [doMove_board, ih]
  | restart g₂ hs ih => rw [doRestart_board, ih]

theorem movement_unit {d : Nat} (h : (Movement d).1 ≠ (Movement d).2) :
    d = Up ∨ d = Left ∨ d = Right ∨ d = Down := by
  by_contra hc
  push_neg at hc
  obtain ⟨h1, h2, h3, h4⟩ := hc
  unfold Movement at h
  rw [if_neg h1, if_neg h2, if_neg h3, if_neg h4] at h
  exact h rfl

theorem checkDirectionNP_iff (b : Board) (boxes : List Pos) (d : Nat) (l c : Int) :
    CheckDirectionNP b boxes d l c = true ↔
      CheckFloor b (l + (Movement d).1) (c + (Movement d).2) = true ∧
      (l + (Movement d).1, c + (Movement d).2) ∉ boxes := by
  unfold CheckDirectionNP hasBox
  by_cases hf : CheckFloor b (l + (Movement d).1) (c + (Movement d).2) = true
  · by_cases hb : (l + (Movement d).1, c + (Movement d).2) ∈ boxes
    · simp [hf, hb]
    · simp [hf, hb]
  · simp only [Bool.not_eq_true] at hf
    simp [hf]

theorem checkDirection_iff (b : Board) (boxes : List Pos) (d : Nat) (l c : Int) :
    CheckDirection b boxes d l c true = true ↔
      CheckFloor b (l + (Movement d).1) (c + (Movement d).2) = true ∧
      ((l + (Movement d).1, c + (Movement d).2) ∈ boxes →
        CheckDirectionNP b boxes d (l + (Movement d).1) (c + (Movement d).2) = true) := by
  unfold CheckDirection hasBox
  by_cases hf : CheckFloor b (l + (Movement d).1) (c + (Movement d).2) = true
  · by_cases hb : (l + (Movement d).1, c + (Movement d).2) ∈ boxes
    · simp [hf, hb]
    · simp [hf, hb]
  · simp only [Bool.not_eq_true] at hf
    simp [hf]

theorem checkDirection_elim {b : Board} {boxes : List Pos} {d : Nat} {l c : Int}
    (h : CheckDirection b boxes d l c true = true) :
    CheckFloor b (l + (Movement d).1) (c + (Movement d).2) = true ∧
    ((l + (Movement d).1, c + (Movement d).2) ∈ boxes →
      CheckFloor b (l + (Movement d).1 + (Movement d).1) (c + (Movement d).2 + (Movement d).2) = true ∧
      (l + (Movement d).1 + (Movement d).1, c + (Movement d).2 + (Movement d).2) ∉ boxes) := by
  obtain ⟨hf, hnp⟩ := (checkDirection_iff b boxes d l c).mp h
  exact ⟨hf, fun hb =>
    (checkDirectionNP_iff b boxes d (l + (Movement d).1) (c + (Movement d).2)).mp (hnp hb)⟩

theorem computeDirections_and (b : Board) (boxes : List Pos) (p : Pos) {d : Nat}
    (hd : d = Up ∨ d = Left ∨ d = Right ∨ d = Down) :
    computeDirections b boxes p &&& d ≠ 0 ↔ CheckDirection b boxes d p.1 p.2 true = true := by
  rcases hd with rfl | rfl | rfl | rfl <;>
  · unfold computeDirections
    cases h1 : CheckDirection b boxes Up p.1 p.2 true <;>
      cases h2 : CheckDirection b boxes Left p.1 p.2 true <;>
        cases h3 : CheckDirection b boxes Right p.1 p.2 true <;>
          cases h4 : CheckDirection b boxes Down p.1 p.2 true <;>
            simp [List.foldl_cons, List.foldl_nil, h1, h2, h3, h4] <;>
              decide

theorem computeDirections_lt (b : Board) (boxes : List Pos) (p : Pos) :
    computeDirections b boxes p < 16 := by
  unfold computeDirections
  cases h1 : CheckDirection b boxes Up p.1 p.2 true <;>
    cases h2 : CheckDirection b boxes Left p.1 p.2 true <;>
      cases h3 : CheckDirection b boxes Right p.1 p.2 true <;>
        cases h4 : CheckDirection b boxes Down p.1 p.2 true <;>
          simp [List.foldl_cons, List.foldl_nil, h1, h2, h3, h4] <;>
            decide

theorem inv_updateData (g : Game)
    (hb0s : SortedPos g.board.BoxPos0)
    (hb0f : ∀ bx ∈ g.board.BoxPos0, CheckFloor g.board bx.1 bx.2 = true)
    (hp0f : CheckFloor g.board g.board.PlayerPos0.1 g.board.PlayerPos0.2 = true)
    (hp0b : g.board.PlayerPos0 ∉ g.board.BoxPos0)
    (hbs : SortedPos g.BoxPos) (hbl : g.BoxPos.length = g.board.BoxPos0.length)
    (hbf : ∀ bx ∈ g.BoxPos, CheckFloor g.board bx.1 bx.2 = true)
    (hpf : CheckFloor g.board g.PlayerPos.1 g.PlayerPos.2 = true)
    (hpb : g.PlayerPos ∉ g.BoxPos) : Inv (UpdateData g) :=
  ⟨hb0s, hb0f, hp0f, hp0b, hbs, hbl, hbf, hpf, hpb, rfl, rfl, rfl, rfl, rfl⟩

theorem inv_doRestart {g : Game} (h : Inv g) : Inv (DoRestart g) := by
  unfold DoRestart
  exact inv_updateData _ h.box0_sorted h.box0_floor h.player0_floor h.player0_not_box
    h.box0_sorted rfl h.box0_floor h.player0_floor h.player0_not_box

theorem inv_doMove {g : Game} (d : Nat) (h : Inv g) : Inv (DoMove g d).1 := by
  by_cases h0 : g.Directions &&& d = 0
  · simp only [DoMove, if_pos h0]
    exact h
  by_cases hmv : (Movement d).1 = (Movement d).2
  · simp only [DoMove, if_neg h0, if_pos hmv]
    exact h
  have hd := movement_unit hmv
  have hcd : CheckDirection g.board g.BoxPos d g.PlayerPos.1 g.PlayerPos.2 true = true := by
    rw [h.dir_eq] at h0
    exact (computeDirections_and g.board g.BoxPos g.PlayerPos hd).mp h0
  obtain ⟨hdest, hpush⟩ := checkDirection_elim hcd
  have hmvnz : (Movement d).1 ≠ 0 ∨ (Movement d).2 ≠ 0 := by
    rcases hd with rfl | rfl | rfl | rfl <;> simp [Movement, Up, Left, Right, Down]
  by_cases hmem : (g.PlayerPos.1 + (Movement d).1, g.PlayerPos.2 + (Movement d).2) ∈ g.BoxPos
  · obtain ⟨hbf2, hbn2⟩ := hpush hmem
    simp only [DoMove, if_neg h0, if_neg hmv, hmem, if_true]
    refine inv_updateData _ h.box0_sorted h.box0_floor h.player0_floor h.player0_not_box
      ?_ ?_ ?_ hdest ?_
    · exact insertPos_sorted (erasePos_sorted h.box_sorted)
    · have hnm : (g.PlayerPos.1 + (Movement d).1 + (Movement d).1,
          g.PlayerPos.2 + (Movement d).2 + (Movement d).2) ∉
          erasePos (g.PlayerPos.1 + (Movement d).1, g.PlayerPos.2 + (Movement d).2) g.BoxPos :=
        fun hc => hbn2 (mem_erasePos hc)
      rw [length_insertPos_of_not_mem hnm, ← h.box_len,
        ← length_erasePos_of_mem hmem]
    · intro bx hbx
      rcases mem_insertPos.mp hbx with rfl | hbx
      · exact hbf2
      · exact h.box_floor bx (mem_erasePos hbx)
    · intro hc
      rcases mem_insertPos.mp hc with heq | hc
      · rw [Prod.ext_iff] at heq
        obtain ⟨e1, e2⟩ := heq
        simp only at e1 e2
        rcases hmvnz with hz | hz
        · exact hz (by omega)
        · exact hz (by omega)
      · exact not_mem_erasePos_self (sortedPos_nodup h.box_sorted) hc
  · simp only [DoMove, if_neg h0, if_neg hmv, hmem, if_false]
    exact inv_updateData _ h.box0_sorted h.box0_floor h.player0_floor h.player0_not_box
      h.box_sorted h.box_len h.box_floor hdest hmem

/-- Every state reachable from a state satisfying the invariant satisfies
the invariant. -/
theorem inv_steps {g₀ g : Game} (h₀ : Inv g₀) (h : Steps g₀ g) : Inv g := by
  induction h with
  | refl => exact h₀
  | move g₂ d hs ih => exact inv_doMove d ih
  | restart g₂ hs ih => exact inv_doRestart ih

theorem posLt_mono_right {p : Pos} {l c c' : Int} (h : posLt p (l, c) = true) (hc : c ≤ c') :
    posLt p (l, c') = true := by
  rcases p with ⟨p1, p2⟩
  simp only [posLt_iff] at h ⊢
  omega

/-- The invariant of the constructor's scan state: stored positions are
in bounds, lie strictly before the scan head, goal and box sets are
sorted sublists of the floors, and the player sentinel is accurate. -/
structure ScanInv (s : ScanSt) : Prop where
  line_nn : 0 ≤ s.line
  col_nn : -1 ≤ s.col
  line_lt : s.line < 125
  col_lt : s.col < 125
  line_h : s.line + 1 ≤ s.Height
  col_w : s.col + 1 ≤ s.Width
  floors_bound : ∀ p ∈ s.floors, 0 ≤ p.1 ∧ p.1 < s.Height ∧ 0 ≤ p.2 ∧ p.2 < s.Width
  fresh : ∀ p ∈ s.floors, posLt p (s.line, s.col + 1) = true
  goals_sub : ∀ p ∈ s.goals, p ∈ s.floors
  boxes_sub : ∀ p ∈ s.boxes, p ∈ s.floors
  goals_sorted : SortedPos s.goals
  boxes_sorted : SortedPos s.boxes
  player_ok : s.player = (-1, -1) ∨
    (0 ≤ s.player.1 ∧ 0 ≤ s.player.2 ∧ s.player ∈ s.floors ∧ s.player ∉ s.boxes)

theorem scanInv_init : ScanInv initScan := by
  refine ⟨by decide, by decide, by decide, by decide, by decide, by decide,
    ?_, ?_, ?_, ?_, ?_, ?_, ?_⟩ <;> simp [initScan, SortedPos]

theorem scanInv_scanChar {s : ScanSt} {c : Char} {s' : ScanSt}
    (h : ScanInv s) (hc : scanChar s c = .ok s') : ScanInv s' := by
  have A1 := h.line_nn
  have A2 := h.col_nn
  have A3 := h.line_lt
  have A4 := h.col_lt
  have A5 := h.line_h
  have A6 := h.col_w
  unfold scanChar at hc
  by_cases hr : c = '\r'
  · rw [if_pos hr] at hc
    cases hc
    exact h
  rw [if_neg hr] at hc
  by_cases hn : c = '\n'
  · rw [if_pos hn] at hc
    by_cases hl : (125 : Int) ≤ s.line + 1
    · rw [if_pos hl] at hc
      cases hc
    rw [if_neg hl] at hc
    cases hc
    refine ⟨by (try dsimp only); omega, by (try dsimp only); omega, by (try dsimp only); omega,
      by (try dsimp only); omega, ?_, ?_, ?_, ?_,
      h.goals_sub, h.boxes_sub, h.goals_sorted, h.boxes_sorted, h.player_ok⟩
    · dsimp only
      split <;> omega
    · (try dsimp only)
      omega
    · intro p hp
      obtain ⟨b1, b2, b3, b4⟩ := h.floors_bound p hp
      dsimp only
      split <;> exact ⟨b1, by omega, b3, b4⟩
    · intro p hp
      have hf := h.fresh p hp
      rcases p with ⟨p1, p2⟩
      simp only [posLt_iff] at hf ⊢

      omega
  rw [if_neg hn] at hc
  by_cases hcl : (125 : Int) ≤ s.col + 1
  · rw [if_pos hcl] at hc
    cases hc
  rw [if_neg hcl] at hc
  -- shared facts about the advanced state
  have hw : s.col + 1 + 1 ≤ (if s.Width ≤ s.col + 1 then s.col + 1 + 1 else s.Width) := by
    split <;> omega
  have hwmono : s.Width ≤ (if s.Width ≤ s.col + 1 then s.col + 1 + 1 else s.Width) := by
    split <;> omega
  have hpfresh : ∀ p ∈ s.floors, posLt p (s.line, s.col + 1 + 1) = true := by
    intro p hp
    exact posLt_mono_right (h.fresh p hp) (by omega)
  have hpnotfl : ((s.line, s.col + 1) : Pos) ∉ s.floors := by
    intro hmem
    exact posLt_irrefl _ (h.fresh _ hmem)
  have hpnotbox : ((s.line, s.col + 1) : Pos) ∉ s.boxes := fun hm => hpnotfl (h.boxes_sub _ hm)
  have hselffresh : posLt ((s.line, s.col + 1) : Pos) (s.line, s.col + 1 + 1) = true := by
    simp [posLt_iff]
  have hbound : ∀ p ∈ s.floors ++ [((s.line, s.col + 1) : Pos)],
      0 ≤ p.1 ∧ p.1 < s.Height ∧ 0 ≤ p.2 ∧
        p.2 < (if s.Width ≤ s.col + 1 then s.col + 1 + 1 else s.Width) := by
    intro p hp
    rcases List.mem_append.mp hp with hp | hp
    · have hb := h.floors_bound p hp
      exact ⟨hb.1, hb.2.1, hb.2.2.1, by omega⟩
    · rcases List.mem_singleton.mp hp with rfl
      have := h.line_nn
      have := h.line_h
      have := h.col_nn
      refine ⟨by (try dsimp only); omega, by (try dsimp only); omega, by (try dsimp only); omega, by (try dsimp only); omega⟩
  have hfresh2 : ∀ p ∈ s.floors ++ [((s.line, s.col + 1) : Pos)],
      posLt p (s.line, s.col + 1 + 1) = true := by
    intro p hp
    rcases List.mem_append.mp hp with hp | hp
    · exact hpfresh p hp
    · rcases List.mem_singleton.mp hp with rfl
      exact hselffresh
  have hplayer2 : s.player = (-1, -1) ∨
      (0 ≤ s.player.1 ∧ 0 ≤ s.player.2 ∧
        s.player ∈ s.floors ++ [((s.line, s.col + 1) : Pos)] ∧ s.player ∉ s.boxes) := by
    rcases h.player_ok with hp | hp
    · exact Or.inl hp
    · exact Or.inr ⟨hp.1, hp.2.1, List.mem_append.mpr (Or.inl hp.2.2.1), hp.2.2.2⟩
  by_cases hdot : c = '.'
  · rw [if_pos hdot] at hc
    cases hc
    exact ⟨h.line_nn, by (try dsimp only); omega, h.line_lt, by (try dsimp only); omega, h.line_h, hw, hbound, hfresh2,
      fun p hp => List.mem_append.mpr (Or.inl (h.goals_sub p hp)),
      fun p hp => List.mem_append.mpr (Or.inl (h.boxes_sub p hp)),
      h.goals_sorted, h.boxes_sorted, hplayer2⟩
  rw [if_neg hdot] at hc
  by_cases hstar : c = '*'
  · rw [if_pos hstar] at hc
    by_cases hps : (0 : Int) ≤ s.player.1 + s.player.2
    · rw [if_pos hps] at hc
      cases hc
    rw [if_neg hps] at hc
    cases hc
    refine ⟨h.line_nn, by (try dsimp only); omega, h.line_lt, by (try dsimp only); omega, h.line_h, hw, hbound, hfresh2,
      fun p hp => List.mem_append.mpr (Or.inl (h.goals_sub p hp)),
      fun p hp => List.mem_append.mpr (Or.inl (h.boxes_sub p hp)),
      h.goals_sorted, h.boxes_sorted, ?_⟩
    refine Or.inr ⟨h.line_nn, by (try dsimp only); omega, List.mem_append.mpr (Or.inr ?_), hpnotbox⟩
    simp
  rw [if_neg hstar] at hc
  by_cases hdol : c = '$'
  · rw [if_pos hdol] at hc
    cases hc
    refine ⟨h.line_nn, by (try dsimp only); omega, h.line_lt, by (try dsimp only); omega, h.line_h, hw, hbound, hfresh2, ?_,
      fun p hp => List.mem_append.mpr (Or.inl (h.boxes_sub p hp)),
      insertPos_sorted h.goals_sorted, h.boxes_sorted, hplayer2⟩
    intro p hp
    rcases mem_insertPos.mp hp with rfl | hp
    · exact List.mem_append.mpr (Or.inr (by simp))
    · exact List.mem_append.mpr (Or.inl (h.goals_sub p hp))
  rw [if_neg hdol] at hc
  by_cases hamp : c = '&'
  · rw [if_pos hamp] at hc
    cases hc
    refine ⟨h.line_nn, by (try dsimp only); omega, h.line_lt, by (try dsimp only); omega, h.line_h, hw, hbound, hfresh2,
      fun p hp => List.mem_append.mpr (Or.inl (h.goals_sub p hp)), ?_,
      h.goals_sorted, insertPos_sorted h.boxes_sorted, ?_⟩
    · intro p hp
      rcases mem_insertPos.mp hp with rfl | hp
      · exact List.mem_append.mpr (Or.inr (by simp))
      · exact List.mem_append.mpr (Or.inl (h.boxes_sub p hp))
    · rcases h.player_ok with hp | hp
      · exact Or.inl hp
      · refine Or.inr ⟨hp.1, hp.2.1, List.mem_append.mpr (Or.inl hp.2.2.1), ?_⟩
        intro hm
        rcases mem_insertPos.mp hm with heq | hm
        · have := h.fresh _ hp.2.2.1
          rw [heq] at this
          exact posLt_irrefl _ this
        · exact hp.2.2.2 hm
  rw [if_neg hamp] at hc
  by_cases hplus : c = '+'
  · rw [if_pos hplus] at hc
    by_cases hps : (0 : Int) ≤ s.player.1 + s.player.2
    · rw [if_pos hps] at hc
      cases hc
    rw [if_neg hps] at hc
    cases hc
    refine ⟨h.line_nn, by (try dsimp only); omega, h.line_lt, by (try dsimp only); omega, h.line_h, hw, hbound, hfresh2, ?_,
      fun p hp => List.mem_append.mpr (Or.inl (h.boxes_sub p hp)),
      insertPos_sorted h.goals_sorted, h.boxes_sorted, ?_⟩
    · intro p hp
      rcases mem_insertPos.mp hp with rfl | hp
      · exact List.mem_append.mpr (Or.inr (by simp))
      · exact List.mem_append.mpr (Or.inl (h.goals_sub p hp))
    · refine Or.inr ⟨h.line_nn, by (try dsimp only); omega, List.mem_append.mpr (Or.inr ?_), hpnotbox⟩
      simp
  rw [if_neg hplus] at hc
  by_cases hat : c = '@'
  · rw [if_pos hat] at hc
    cases hc
    refine ⟨h.line_nn, by (try dsimp only); omega, h.line_lt, by (try dsimp only); omega, h.line_h, hw, hbound, hfresh2, ?_, ?_,
      insertPos_sorted h.goals_sorted, insertPos_sorted h.boxes_sorted, ?_⟩
    · intro p hp
      rcases mem_insertPos.mp hp with rfl | hp
      · exact List.mem_append.mpr (Or.inr (by simp))
      · exact List.mem_append.mpr (Or.inl (h.goals_sub p hp))
    · intro p hp
      rcases mem_insertPos.mp hp with rfl | hp
      · exact List.mem_append.mpr (Or.inr (by simp))
      · exact List.mem_append.mpr (Or.inl (h.boxes_sub p hp))
    · rcases h.player_ok with hp | hp
      · exact Or.inl hp
      · refine Or.inr ⟨hp.1, hp.2.1, List.mem_append.mpr (Or.inl hp.2.2.1), ?_⟩
        intro hm
        rcases mem_insertPos.mp hm with heq | hm
        · have := h.fresh _ hp.2.2.1
          rw [heq] at this
          exact posLt_irrefl _ this
        · exact hp.2.2.2 hm
  rw [if_neg hat] at hc
  cases hc
  exact ⟨h.line_nn, by (try dsimp only); omega, h.line_lt, by (try dsimp only); omega, h.line_h, hw,
    fun p hp => by
      have hb := h.floors_bound p hp
      exact ⟨hb.1, hb.2.1, hb.2.2.1, by (try dsimp only); omega⟩,
    hpfresh, h.goals_sub, h.boxes_sub, h.goals_sorted, h.boxes_sorted, h.player_ok⟩

theorem scanInv_scanMaze {s : ScanSt} {cs : List Char} {s' : ScanSt}
    (h : ScanInv s) (hm : scanMaze s cs = .ok s') : ScanInv s' := by
  induction cs generalizing s with
  | nil =>
    unfold scanMaze at hm
    cases hm
    exact h
  | cons c cs ih =>
    unfold scanMaze at hm
    cases hsc : scanChar s c with
    | error e => rw [hsc] at hm; cases hm
    | ok s₁ =>
      rw [hsc] at hm
      exact ih (scanInv_scanChar h hsc) hm

theorem checkFloor_of_mem {b : Board} {p : Pos} (hm : p ∈ b.floors)
    (h1 : 0 ≤ p.1) (h2 : p.1 < b.Height) (h3 : 0 ≤ p.2) (h4 : p.2 < b.Width) :
    CheckFloor b p.1 p.2 = true := by
  simp only [CheckFloor, floorIdx, Prod.mk.eta, hm, if_true, if_pos]
  rw [if_neg, if_neg]
  · simp
  · simp only [Bool.or_eq_true, decide_eq_true_eq, not_or]
    omega
  · simp only [Bool.or_eq_true, decide_eq_true_eq, not_or]
    omega

/-- Every successfully constructed game satisfies the reachable-state
invariant. -/
theorem inv_construct {sb : Nat} {maze : List Char} {g : Game}
    (h : construct sb maze = .ok g) : Inv g := by
  unfold construct at h
  cases hsc : scanMaze initScan (trimMaze maze) with
  | error e => rw [hsc] at h; cases h
  | ok s =>
    rw [hsc] at h
    dsimp only at h
    have hs : ScanInv s := scanInv_scanMaze scanInv_init hsc
    by_cases h1 : s.player.1 + s.player.2 = -2
    · rw [if_pos h1] at h; cases h
    rw [if_neg h1] at h
    by_cases h2 : s.boxes = []
    · rw [if_pos h2] at h; cases h
    rw [if_neg h2] at h
    by_cases h3 : s.goals.length < s.boxes.length
    · rw [if_pos h3] at h; cases h
    rw [if_neg h3] at h
    by_cases h4 : sb < bitsFor (s.floors.length - 1) * (s.boxes.length + 1)
    · rw [if_pos h4] at h; cases h
    rw [if_neg h4] at h
    cases h
    have hpl : 0 ≤ s.player.1 ∧ 0 ≤ s.player.2 ∧ s.player ∈ s.floors ∧ s.player ∉ s.boxes := by
      rcases hs.player_ok with hp | hp
      · rw [hp] at h1
        exact absurd rfl h1
      · exact hp
    have hboxes : ∀ bx ∈ s.boxes,
        CheckFloor ⟨sb, s.Height, s.Width, s.floors, s.goals,
          bitsFor (s.floors.length - 1), s.player, s.boxes⟩ bx.1 bx.2 = true := by
      intro bx hbx
      have hfm := hs.boxes_sub bx hbx
      obtain ⟨b1, b2, b3, b4⟩ := hs.floors_bound bx hfm
      exact checkFloor_of_mem hfm b1 b2 b3 b4
    have hplf : CheckFloor ⟨sb, s.Height, s.Width, s.floors, s.goals,
        bitsFor (s.floors.length - 1), s.player, s.boxes⟩ s.player.1 s.player.2 = true := by
      obtain ⟨b1, b2, b3, b4⟩ := hs.floors_bound s.player hpl.2.2.1
      exact checkFloor_of_mem hpl.2.2.1 b1 b2 b3 b4
    exact inv_updateData _ hs.boxes_sorted hboxes hplf hpl.2.2.2
      hs.boxes_sorted rfl hboxes hplf hpl.2.2.2

/-- Spec-side character class: the player symbols of the legend. -/
def isPlayerChar (c : Char) : Bool := c = '*' || c = '+'

/-- Spec-side character class: the box symbols of the legend. -/
def isBoxChar (c : Char) : Bool := c = '&' || c = '@'

/-- Spec-side character class: the goal symbols of the legend. -/
def isGoalChar (c : Char) : Bool := c = '$' || c = '+' || c = '@'

/-- Spec-side character class: the symbols that occupy a floor square. -/
def isFloorChar (c : Char) : Bool :=
  c = '.' || c = '*' || c = '$' || c = '&' || c = '+' || c = '@'

/-- The number of player symbols in the maze text. -/
def playerCount (cs : List Char) : Nat := cs.countP isPlayerChar

/-- The number of box symbols in the maze text. -/
def boxCount (cs : List Char) : Nat := cs.countP isBoxChar

/-- The number of goal symbols in the maze text. -/
def goalCount (cs : List Char) : Nat := cs.countP isGoalChar

/-- The number of floor-occupying symbols in the maze text. -/
def floorCount (cs : List Char) : Nat := cs.countP isFloorChar

/-- The number of newline characters in the maze text. -/
def newlineCount (cs : List Char) : Nat := cs.countP (fun c => c = '\n')

/-- The lengths of the rows of the maze text (carriage returns do not
count towards a row's length), given the length already accumulated for
the current row. -/
def rowLens : List Char → Nat → List Nat
  | [], acc => [acc]
  | c :: cs, acc =>
    if c = '\n' then acc :: rowLens cs 0
    else if c = '\r' then rowLens cs acc
    else rowLens cs (acc + 1)

/-- The error conditions the spec enumerates for game construction,
written from the spec's words as counting conditions on the maze text
(to be compared with the code-derived `construct`): more than 125 rows,
a row of more than 125 columns, more than one player symbol, no player
symbol, no box symbol, more box than goal symbols, or a state encoding
wider than the key capacity `sb`. -/
def specBadMaze (sb : Nat) (cs : List Char) : Bool :=
  decide (125 ≤ newlineCount cs) ||
  (rowLens cs 0).any (fun n => decide (126 ≤ n)) ||
  decide (2 ≤ playerCount cs) ||
  decide (playerCount cs = 0) ||
  decide (boxCount cs = 0) ||
  decide (goalCount cs < boxCount cs) ||
  decide (sb < bitsFor (floorCount cs - 1) * (boxCount cs + 1))

/-- The number of players the scan state has recorded (0 or 1). -/
def pcount (s : ScanSt) : Nat := if s.player = (-1, -1) then 0 else 1

theorem scanChar_counts {s : ScanSt} {c : Char} {s₁ : ScanSt}
    (h : ScanInv s) (hc : scanChar s c = .ok s₁) :
    s₁.line = s.line + (if c = '\n' then 1 else 0) ∧
    s₁.col = (if c = '\n' then -1 else if c = '\r' then s.col else s.col + 1) ∧
    s₁.floors.length = s.floors.length + (if isFloorChar c then 1 else 0) ∧
    s₁.boxes.length = s.boxes.length + (if isBoxChar c then 1 else 0) ∧
    s₁.goals.length = s.goals.length + (if isGoalChar c then 1 else 0) ∧
    pcount s₁ = pcount s + (if isPlayerChar c then 1 else 0) := by
  unfold scanChar at hc
  by_cases hr : c = '\r'
  · rw [if_pos hr] at hc
    cases hc
    simp [hr, isFloorChar, isBoxChar, isGoalChar, isPlayerChar]
  rw [if_neg hr] at hc
  by_cases hn : c = '\n'
  · rw [if_pos hn] at hc
    by_cases hl : (125 : Int) ≤ s.line + 1
    · rw [if_pos hl] at hc
      cases hc
    rw [if_neg hl] at hc
    cases hc
    simp [hn, isFloorChar, isBoxChar, isGoalChar, isPlayerChar, pcount]
  rw [if_neg hn] at hc
  by_cases hcl : (125 : Int) ≤ s.col + 1
  · rw [if_pos hcl] at hc
    cases hc
  rw [if_neg hcl] at hc
  have hpnotfl : ((s.line, s.col + 1) : Pos) ∉ s.floors := by
    intro hmem
    exact posLt_irrefl _ (h.fresh _ hmem)
  have hpnotbox : ((s.line, s.col + 1) : Pos) ∉ s.boxes := fun hm => hpnotfl (h.boxes_sub _ hm)
  have hpnotgoal : ((s.line, s.col + 1) : Pos) ∉ s.goals := fun hm => hpnotfl (h.goals_sub _ hm)
  have hpn : ((s.line, s.col + 1) : Pos) ≠ ((-1, -1) : Pos) := by
    have := h.line_nn
    simp only [ne_eq, Prod.mk.injEq, not_and]
    intro h1
    omega
  by_cases hdot : c = '.'
  · rw [if_pos hdot] at hc
    cases hc
    simp [hn, hr, hdot, isFloorChar, isBoxChar, isGoalChar, isPlayerChar, pcount]
  rw [if_neg hdot] at hc
  by_cases hstar : c = '*'
  · rw [if_pos hstar] at hc
    by_cases hps : (0 : Int) ≤ s.player.1 + s.player.2
    · rw [if_pos hps] at hc
      cases hc
    rw [if_neg hps] at hc
    cases hc
    have hpe : s.player = (-1, -1) := by
      rcases h.player_ok with hp | hp
      · exact hp
      · obtain ⟨h1, h2, _, _⟩ := hp
        exact absurd (by omega : (0 : Int) ≤ s.player.1 + s.player.2) hps
    simp [hn, hr, hstar, isFloorChar, isBoxChar, isGoalChar, isPlayerChar, pcount, hpn, hpe]
  rw [if_neg hstar] at hc
  by_cases hdol : c = '$'
  · rw [if_pos hdol] at hc
    cases hc
    simp [hn, hr, hdol, isFloorChar, isBoxChar, isGoalChar, isPlayerChar, pcount,
      length_insertPos_of_not_mem hpnotgoal]
  rw [if_neg hdol] at hc
  by_cases hamp : c = '&'
  · rw [if_pos hamp] at hc
    cases hc
    simp [hn, hr, hamp, isFloorChar, isBoxChar, isGoalChar, isPlayerChar, pcount,
      length_insertPos_of_not_mem hpnotbox]
  rw [if_neg hamp] at hc
  by_cases hplus : c = '+'
  · rw [if_pos hplus] at hc
    by_cases hps : (0 : Int) ≤ s.player.1 + s.player.2
    · rw [if_pos hps] at hc
      cases hc
    rw [if_neg hps] at hc
    cases hc
    have hpe : s.player = (-1, -1) := by
      rcases h.player_ok with hp | hp
      · exact hp
      · obtain ⟨h1, h2, _, _⟩ := hp
        exact absurd (by omega : (0 : Int) ≤ s.player.1 + s.player.2) hps
    simp [hn, hr, hplus, isFloorChar, isBoxChar, isGoalChar, isPlayerChar, pcount, hpn, hpe,
      length_insertPos_of_not_mem hpnotgoal]
  rw [if_neg hplus] at hc
  by_cases hat : c = '@'
  · rw [if_pos hat] at hc
    cases hc
    simp [hn, hr, hat, isFloorChar, isBoxChar, isGoalChar, isPlayerChar, pcount,
      length_insertPos_of_not_mem hpnotbox, length_insertPos_of_not_mem hpnotgoal]
  rw [if_neg hat] at hc
  cases hc
  simp [hn, hr, hdot, hstar, hdol, hamp, hplus, hat,
    isFloorChar, isBoxChar, isGoalChar, isPlayerChar, pcount]

theorem scanChar_err {s : ScanSt} {c : Char} {e : String}
    (h : ScanInv s) (hc : scanChar s c = .error e) :
    (c = '\n' ∧ 125 ≤ s.line + 1) ∨
    (c ≠ '\n' ∧ c ≠ '\r' ∧ 125 ≤ s.col + 1) ∨
    (isPlayerChar c = true ∧ pcount s = 1) := by
  have hp1 : (0 : Int) ≤ s.player.1 + s.player.2 → pcount s = 1 := by
    intro hps
    rcases h.player_ok with hp | hp
    · rw [hp] at hps
      omega
    · rcases hp with ⟨h1, h2, _, _⟩
      have : s.player ≠ ((-1, -1) : Pos) := by
        intro he
        rw [he] at h1
        exact absurd h1 (by norm_num)
      simp [pcount, this]
  unfold scanChar at hc
  by_cases hr : c = '\r'
  · rw [if_pos hr] at hc
    cases hc
  rw [if_neg hr] at hc
  by_cases hn : c = '\n'
  · rw [if_pos hn] at hc
    by_cases hl : (125 : Int) ≤ s.line + 1
    · exact Or.inl ⟨hn, hl⟩
    rw [if_neg hl] at hc
    cases hc
  rw [if_neg hn] at hc
  by_cases hcl : (125 : Int) ≤ s.col + 1
  · exact Or.inr (Or.inl ⟨hn, hr, hcl⟩)
  rw [if_neg hcl] at hc
  by_cases hdot : c = '.'
  · rw [if_pos hdot] at hc
    cases hc
  rw [if_neg hdot] at hc
  by_cases hstar : c = '*'
  · rw [if_pos hstar] at hc
    by_cases hps : (0 : Int) ≤ s.player.1 + s.player.2
    · exact Or.inr (Or.inr ⟨by simp [isPlayerChar, hstar], hp1 hps⟩)
    rw [if_neg hps] at hc
    cases hc
  rw [if_neg hstar] at hc
  by_cases hdol : c = '$'
  · rw [if_pos hdol] at hc
    cases hc
  rw [if_neg hdol] at hc
  by_cases hamp : c = '&'
  · rw [if_pos hamp] at hc
    cases hc
  rw [if_neg hamp] at hc
  by_cases hplus : c = '+'
  · rw [if_pos hplus] at hc
    by_cases hps : (0 : Int) ≤ s.player.1 + s.player.2
    · exact Or.inr (Or.inr ⟨by simp [isPlayerChar, hplus], hp1 hps⟩)
    rw [if_neg hps] at hc
    cases hc
  rw [if_neg hplus] at hc
  by_cases hat : c = '@'
  · rw [if_pos hat] at hc
    cases hc
  rw [if_neg hat] at hc
  cases hc

theorem rowLens_exists_ge : ∀ (cs : List Char) (acc : Nat), ∃ n ∈ rowLens cs acc, acc ≤ n := by
  intro cs
  induction cs with
  | nil => exact fun acc => ⟨acc, by simp [rowLens], le_refl acc⟩
  | cons c cs ih =>
    intro acc
    by_cases hx : c = '\n'
    · exact ⟨acc, by simp [rowLens, hx], le_refl acc⟩
    · by_cases hy : c = '\r'
      · obtain ⟨n, hn, hle⟩ := ih acc
        exact ⟨n, by simp [rowLens, hx, hy]; exact hn, hle⟩
      · obtain ⟨n, hn, hle⟩ := ih (acc + 1)
        exact ⟨n, by simp [rowLens, hx, hy]; exact hn, by omega⟩

theorem scanMaze_ok_counts {cs : List Char} :
    ∀ {s s' : ScanSt}, ScanInv s → scanMaze s cs = .ok s' →
      s'.line = s.line + (newlineCount cs : Int) ∧
      s'.floors.length = s.floors.length + floorCount cs ∧
      s'.boxes.length = s.boxes.length + boxCount cs ∧
      s'.goals.length = s.goals.length + goalCount cs ∧
      pcount s' = pcount s + playerCount cs ∧
      (∀ n ∈ rowLens cs (s.col + 1).toNat, n ≤ 125) := by
  induction cs with
  | nil =>
    intro s s' h hm
    unfold scanMaze at hm
    cases hm
    have hclt := h.col_lt
    have hcnn := h.col_nn
    refine ⟨by simp [newlineCount], by simp [floorCount], by simp [boxCount],
      by simp [goalCount], by simp [playerCount], ?_⟩
    intro n hn
    rcases List.mem_singleton.mp (by simpa [rowLens] using hn) with rfl
    omega
  | cons c cs ih =>
    intro s s' h hm
    unfold scanMaze at hm
    cases hsc : scanChar s c with
    | error e2 => rw [hsc] at hm; cases hm
    | ok s₁ =>
      rw [hsc] at hm
      have hinv₁ := scanInv_scanChar h hsc
      obtain ⟨l1, l2, l3, l4, l5, l6⟩ := scanChar_counts h hsc
      obtain ⟨m1, m2, m3, m4, m5, m6⟩ := ih hinv₁ hm
      have hcnn := h.col_nn
      have hclt := h.col_lt
      refine ⟨?_, ?_, ?_, ?_, ?_, ?_⟩
      · rw [m1, l1]
        by_cases hx : c = '\n'
        · simp [newlineCount, List.countP_cons, hx]
          ring
        · simp [newlineCount, List.countP_cons, hx]
      · rw [m2, l3]
        by_cases hx : isFloorChar c
        · simp [floorCount, List.countP_cons, hx]
          omega
        · simp [floorCount, List.countP_cons, hx]
      · rw [m3, l4]
        by_cases hx : isBoxChar c
        · simp [boxCount, List.countP_cons, hx]
          omega
        · simp [boxCount, List.countP_cons, hx]
      · rw [m4, l5]
        by_cases hx : isGoalChar c
        · simp [goalCount, List.countP_cons, hx]
          omega
        · simp [goalCount, List.countP_cons, hx]
      · rw [m5, l6]
        by_cases hx : isPlayerChar c
        · simp [playerCount, List.countP_cons, hx]
          omega
        · simp [playerCount, List.countP_cons, hx]
      · intro n hn
        by_cases hx : c = '\n'
        · rw [l2, if_pos hx] at m6
          norm_num at m6
          rcases List.mem_cons.mp (by simpa [rowLens, hx] using hn) with rfl | hmem
          · omega
          · exact m6 n hmem
        · by_cases hy : c = '\r'
          · rw [l2, if_neg hx, if_pos hy] at m6
            exact m6 n (by simpa [rowLens, hx, hy] using hn)
          · rw [l2, if_neg hx, if_neg hy] at m6
            have h1 : (s.col + 1 + 1).toNat = (s.col + 1).toNat + 1 := by omega
            rw [h1] at m6
            exact m6 n (by simpa [rowLens, hx, hy] using hn)

theorem scanMaze_err_counts {cs : List Char} :
    ∀ {s : ScanSt} {e : String}, ScanInv s → scanMaze s cs = .error e →
      125 ≤ s.line + (newlineCount cs : Int) ∨
      (∃ n ∈ rowLens cs (s.col + 1).toNat, 126 ≤ n) ∨
      2 ≤ pcount s + playerCount cs := by
  induction cs with
  | nil =>
    intro s e h hm
    unfold scanMaze at hm
    cases hm
  | cons c cs ih =>
    intro s e h hm
    unfold scanMaze at hm
    have hcnn := h.col_nn
    cases hsc : scanChar s c with
    | error e2 =>
      rcases scanChar_err h hsc with ⟨hx, hl⟩ | ⟨hx1, hx2, hl⟩ | ⟨hx, hp⟩
      · left
        have h1 : 1 ≤ newlineCount (c :: cs) := by
          simp [newlineCount, List.countP_cons, hx]
        omega
      · right; left
        obtain ⟨n, hn, hge⟩ := rowLens_exists_ge cs ((s.col + 1).toNat + 1)
        refine ⟨n, by simp [rowLens, hx1, hx2]; exact hn, by omega⟩
      · right; right
        have h1 : 1 ≤ playerCount (c :: cs) := by
          simp [playerCount, List.countP_cons, hx]
        omega
    | ok s₁ =>
      rw [hsc] at hm
      have hinv₁ := scanInv_scanChar h hsc
      obtain ⟨l1, l2, l3, l4, l5, l6⟩ := scanChar_counts h hsc
      rcases ih hinv₁ hm with hcase | hcase | hcase
      · left
        rw [l1] at hcase
        by_cases hx : c = '\n'
        · have h1 : newlineCount (c :: cs) = newlineCount cs + 1 := by
            simp [newlineCount, List.countP_cons, hx]
          rw [if_pos hx] at hcase
          omega
        · have h1 : newlineCount (c :: cs) = newlineCount cs := by
            simp [newlineCount, List.countP_cons, hx]
          rw [if_neg hx] at hcase
          omega
      · right; left
        by_cases hx : c = '\n'
        · rw [l2, if_pos hx] at hcase
          norm_num at hcase
          obtain ⟨n, hn, hge⟩ := hcase
          refine ⟨n, ?_, hge⟩
          simp [rowLens, hx]
          exact Or.inr hn
        · by_cases hy : c = '\r'
          · rw [l2, if_neg hx, if_pos hy] at hcase
            obtain ⟨n, hn, hge⟩ := hcase
            exact ⟨n, by simp [rowLens, hx, hy]; exact hn, hge⟩
          · rw [l2, if_neg hx, if_neg hy] at hcase
            have h1 : (s.col + 1 + 1).toNat = (s.col + 1).toNat + 1 := by omega
            rw [h1] at hcase
            obtain ⟨n, hn, hge⟩ := hcase
            exact ⟨n, by simp [rowLens, hx, hy]; exact hn, hge⟩
      · right; right
        rw [l6] at hcase
        by_cases hx : isPlayerChar c
        · have h1 : playerCount (c :: cs) = playerCount cs + 1 := by
            simp [playerCount, List.countP_cons, hx]
          rw [if_pos hx] at hcase
          omega
        · have h1 : playerCount (c :: cs) = playerCount cs := by
            simp [playerCount, List.countP_cons, hx]
          rw [if_neg hx] at hcase
          omega

/-- Claim C5: game construction returns a typed error exactly when one of
the enumerated conditions holds on the scanned (newline-trimmed) maze
text: more than 125 rows, a row of more than 125 columns, more than one
player symbol, no player symbol, no box symbol, more box than goal
symbols, or a state encoding wider than the key capacity.  (The other
half of the claim, that `Move` and `Restart` never throw after a
successful construction, is expressed by the embedding itself: `DoMove`
and `DoRestart` are total functions into `Game × Bool` and `Game`, with
no error outcome in their types, because their C++ bodies contain no
throw.) -/
theorem construct_error_iff (sb : Nat) (maze : List Char) :
    (∃ e, construct sb maze = .error e) ↔ specBadMaze sb (trimMaze maze) = true := by
  unfold construct
  cases hsc : scanMaze initScan (trimMaze maze) with
  | error e =>
    have herr := scanMaze_err_counts scanInv_init hsc
    simp only [initScan, pcount] at herr
    norm_num at herr
    refine iff_of_true ⟨e, rfl⟩ ?_
    simp only [specBadMaze, Bool.or_eq_true, decide_eq_true_eq, List.any_eq_true]
    rcases herr with hcase | hcase | hcase
    · left; left; left; left; left; left
      omega
    · left; left; left; left; left; right
      obtain ⟨n, hn, hge⟩ := hcase
      exact ⟨n, hn, by omega⟩
    · left; left; left; left; right
      omega
  | ok s =>
    dsimp only
    have hs : ScanInv s := scanInv_scanMaze scanInv_init hsc
    obtain ⟨o1, o2, o3, o4, o5, o6⟩ := scanMaze_ok_counts scanInv_init hsc
    simp only [initScan] at o1 o2 o3 o4 o6
    norm_num at o1 o2 o3 o4 o6
    have o5' : (if s.player = (-1, -1) then 0 else 1) =
        playerCount (trimMaze maze) := by
      have hpi : pcount initScan = 0 := rfl
      rw [pcount] at o5
      omega
    have hp2 : s.player = (-1, -1) ↔ s.player.1 + s.player.2 = -2 := by
      rcases hs.player_ok with hp | hp
      · simp [hp]
      · obtain ⟨h1, h2, _, _⟩ := hp
        constructor
        · intro he
          rw [he] at h1
          exact absurd h1 (by norm_num)
        · intro he
          exact absurd he (by omega)
    by_cases c1 : s.player.1 + s.player.2 = -2
    · rw [if_pos c1]
      refine iff_of_true ⟨"No Player", rfl⟩ ?_
      simp only [specBadMaze, Bool.or_eq_true, decide_eq_true_eq]
      left; left; left; right
      rw [← o5', if_pos (hp2.mpr c1)]
    rw [if_neg c1]
    by_cases c2 : s.boxes = []
    · rw [if_pos c2]
      refine iff_of_true ⟨"No Box", rfl⟩ ?_
      simp only [specBadMaze, Bool.or_eq_true, decide_eq_true_eq]
      left; left; right
      rw [← o3, c2]
      rfl
    rw [if_neg c2]
    by_cases c3 : s.goals.length < s.boxes.length
    · rw [if_pos c3]
      refine iff_of_true ⟨"Too Few Goals", rfl⟩ ?_
      simp only [specBadMaze, Bool.or_eq_true, decide_eq_true_eq]
      left; right
      rw [← o3, ← o4]
      exact c3
    rw [if_neg c3]
    by_cases c4 : sb < bitsFor (s.floors.length - 1) * (s.boxes.length + 1)
    · rw [if_pos c4]
      refine iff_of_true ⟨"Maze Too Large", rfl⟩ ?_
      simp only [specBadMaze, Bool.or_eq_true, decide_eq_true_eq]
      right
      rw [← o2, ← o3]
      exact c4
    rw [if_neg c4]
    refine iff_of_false ?_ ?_
    · rintro ⟨e, he⟩
      simp at he
    · simp only [specBadMaze, Bool.or_eq_true, decide_eq_true_eq, List.any_eq_true, not_or]
      have hll := hs.line_lt
      refine ⟨⟨⟨⟨⟨⟨?_, ?_⟩, ?_⟩, ?_⟩, ?_⟩, ?_⟩, ?_⟩
      · omega
      · rintro ⟨n, hn, hge⟩
        exact absurd (o6 n hn) (by omega)
      · rw [← o5']
        split_ifs <;> omega
      · rw [← o5', if_neg (fun he => c1 (hp2.mp he))]
        omega
      · intro h0
        rw [← o3] at h0
        exact c2 (List.length_eq_zero.mp h0)
      · rw [← o3, ← o4]
        exact c3
      · rw [← o2, ← o3]
        exact c4

/-- The one-row example maze `*&$.`: player, box, goal, floor. -/
def mazeEx : List Char := ['*', '&', '$', '.']

/-- A fallback game used only as the `Option.getD` default below. -/
def dummyGame : Game :=
  { board := { StateBits := 0, Height := 0, Width := 0, floors := [], GoalPos := [],
               FloorBits := 0, PlayerPos0 := (0, 0), BoxPos0 := [] },
    Succeeded := false, Failed := false, Directions := 0, Finished := 0, State := 0,
    TimeElapsed := 0, PlayerPos := (0, 0), BoxPos := [], StateHistory := [] }

/-- The game the constructor builds from `mazeEx` with a 64-bit state key. -/
def gEx : Game := ((construct 64 mazeEx).toOption).getD dummyGame

theorem length_filter_lt_of_mem {α : Type} {p : α → Bool} {l : List α} {x : α}
    (hx : x ∈ l) (hpx : p x = false) : (l.filter p).length < l.length := by
  induction l with
  | nil => cases hx
  | cons a l ih =>
    rcases List.mem_cons.mp hx with rfl | hx
    · have h1 := l.length_filter_le p
      simp [List.filter_cons, hpx]
      omega
    · have h2 := ih hx
      by_cases hpa : p a = true <;> simp [List.filter_cons, hpa] <;> omega

/-- Claim C1: if the direction argument has no bit in common with the
current `legal_directions` bitmask (which covers the sentinel
`NoDirection = 0`), then `Move` returns `false` and the resulting game
state is the unchanged input state — player position, box positions,
finished count, legal directions, terminal flags, encoded state, elapsed
steps and visited-state history included. -/
theorem move_illegal_rejected (g : Game) (d : Nat) (h : g.Directions &&& d = 0) :
    DoMove g d = (g, false) := by
  simp [DoMove, h]

theorem move_illegal_rejected_witness :
    gEx.Directions &&& Up = 0 ∧ DoMove gEx Up = (gEx, false) :=
  ⟨by decide, move_illegal_rejected gEx Up (by decide)⟩

/-- Claim C10: for every direction argument that is not one of the four
unit values `Up = 1`, `Left = 2`, `Right = 4`, `Down = 8`, the movement
vector is `(0, 0)` and `Move` returns `false` without changing any state,
even when the argument intersects `legal_directions`. -/
theorem move_nonunit_rejected (g : Game) (d : Nat)
    (h1 : d ≠ Up) (h2 : d ≠ Left) (h3 : d ≠ Right) (h4 : d ≠ Down) :
    Movement d = (0, 0) ∧ DoMove g d = (g, false) := by
  have hm : Movement d = (0, 0) := by
    unfold Movement
    rw [if_neg h1, if_neg h2, if_neg h3, if_neg h4]
  refine ⟨hm, ?_⟩
  by_cases h0 : g.Directions &&& d = 0
  · simp [DoMove, h0]
  · simp [DoMove, h0, hm]

theorem move_nonunit_rejected_witness :
    gEx.Directions &&& 5 ≠ 0 ∧ Movement 5 = (0, 0) ∧ DoMove gEx 5 = (gEx, false) :=
  ⟨by decide,
    move_nonunit_rejected gEx 5 (by decide) (by decide) (by decide) (by decide)⟩

/-- Claim C2: in every state reachable from a successful construction by
`Move` and `Restart` calls, the box list has exactly the initial box
count of elements and stays duplicate-free: boxes are only relocated,
never created, destroyed, or merged. -/
theorem box_conservation (sb : Nat) (maze : List Char) (g₀ g : Game)
    (hc : construct sb maze = .ok g₀) (hs : Steps g₀ g) :
    g.BoxPos.length = g₀.board.BoxPos0.length ∧ g.BoxPos.Nodup := by
  have hi := inv_steps (inv_construct hc) hs
  refine ⟨?_, sortedPos_nodup hi.box_sorted⟩
  rw [hi.box_len, steps_board hs]

theorem box_conservation_witness :
    (DoMove gEx Right).1.BoxPos.length = gEx.board.BoxPos0.length ∧
      (DoMove gEx Right).1.BoxPos.Nodup :=
  box_conservation 64 mazeEx gEx (DoMove gEx Right).1 rfl
    (Steps.move gEx gEx Right (Steps.refl gEx))

/-- Claim C4: in every reachable state, `succeeded` holds exactly when
the finished count equals the initial box count, and `succeeded` and
`failed` are never both true (the failure check returns `false` as soon
as all boxes are on goals). -/
theorem terminal_flags (sb : Nat) (maze : List Char) (g₀ g : Game)
    (hc : construct sb maze = .ok g₀) (hs : Steps g₀ g) :
    (g.Succeeded = true ↔ g.Finished = g.board.BoxPos0.length) ∧
      ¬(g.Succeeded = true ∧ g.Failed = true) := by
  have hi := inv_steps (inv_construct hc) hs
  constructor
  · rw [hi.suc_eq]
    simp
  · rintro ⟨hsuc, hfail⟩
    rw [hi.suc_eq] at hsuc
    have hfin : g.Finished = g.board.BoxPos0.length := by simpa using hsuc
    rw [hi.fail_eq] at hfail
    unfold CheckFailed at hfail
    rw [if_pos hfin] at hfail
    cases hfail

theorem terminal_flags_witness :
    ((DoMove gEx Right).1.Succeeded = true ↔
      (DoMove gEx Right).1.Finished = (DoMove gEx Right).1.board.BoxPos0.length) ∧
      ¬((DoMove gEx Right).1.Succeeded = true ∧ (DoMove gEx Right).1.Failed = true) :=
  terminal_flags 64 mazeEx gEx (DoMove gEx Right).1 rfl
    (Steps.move gEx gEx Right (Steps.refl gEx))

theorem boxStuck_wall_vertical {b : Board} {boxes : List Pos} {line col : Int}
    (hv : CheckFloor b (line - 1) col = false ∨ CheckFloor b (line + 1) col = false)
    (fuel : Nat) (vis : List (Pos × Bool)) :
    (BoxStuck b boxes fuel line col false vis).1 = true := by
  cases fuel with
  | zero => rfl
  | succ n =>
    rw [BoxStuck]
    by_cases hm : (((line, col), false) : Pos × Bool) ∈ vis
    · simp [hm]
    · have hcond : (!CheckFloor b (line - 1) col || !CheckFloor b (line + 1) col) = true := by
        rcases hv with h | h <;> simp [h]
      simp [hm, hcond]

theorem boxStuck_wall_horizontal {b : Board} {boxes : List Pos} {line col : Int}
    (hh : CheckFloor b line (col - 1) = false ∨ CheckFloor b line (col + 1) = false)
    (fuel : Nat) (vis : List (Pos × Bool)) :
    (BoxStuck b boxes fuel line col true vis).1 = true := by
  cases fuel with
  | zero => rfl
  | succ n =>
    rw [BoxStuck]
    by_cases hm : (((line, col), true) : Pos × Bool) ∈ vis
    · simp [hm]
    · have hcond : (!CheckFloor b line (col - 1) || !CheckFloor b line (col + 1)) = true := by
        rcases hh with h | h <;> simp [h]
      simp [hm, hcond]

theorem boxTrap_of_corner {b : Board} {boxes : List Pos} {player : Pos} {bx : Pos}
    (hmem : bx ∈ boxes) (hgoal : bx ∉ b.GoalPos) (hpl : bx ≠ player)
    (hv : CheckFloor b (bx.1 - 1) bx.2 = false ∨ CheckFloor b (bx.1 + 1) bx.2 = false)
    (hh : CheckFloor b bx.1 (bx.2 - 1) = false ∨ CheckFloor b bx.1 (bx.2 + 1) = false) :
    boxTrap b boxes player bx = true := by
  have hcell : cellVal b boxes player bx ≠ (IsFloor ||| IsGoal ||| IsBox) := by
    unfold cellVal
    rw [if_neg hgoal, if_pos hmem, if_neg hpl]
    cases hcf : CheckFloor b bx.1 bx.2 <;> simp [hcf] <;> decide
  have hsv := @boxStuck_wall_vertical b boxes bx.1 bx.2 hv (2 * boxes.length + 2) []
  have hsh := @boxStuck_wall_horizontal b boxes bx.1 bx.2 hh (2 * boxes.length + 2) []
  unfold boxTrap
  rw [if_pos hcell]
  simp [hsv, hsh]

/-- Claim C9: in every reachable state, a box that is not on a goal cell
and has a wall or off-grid cell among its two vertical neighbours and a
wall or off-grid cell among its two horizontal neighbours makes the
recomputed `failed` flag true. -/
theorem corner_deadlock (sb : Nat) (maze : List Char) (g₀ g : Game) (bx : Pos)
    (hc : construct sb maze = .ok g₀) (hs : Steps g₀ g)
    (hmem : bx ∈ g.BoxPos) (hgoal : bx ∉ g.board.GoalPos)
    (hv : CheckFloor g.board (bx.1 - 1) bx.2 = false ∨
      CheckFloor g.board (bx.1 + 1) bx.2 = false)
    (hh : CheckFloor g.board bx.1 (bx.2 - 1) = false ∨
      CheckFloor g.board bx.1 (bx.2 + 1) = false) :
    g.Failed = true := by
  have hi := inv_steps (inv_construct hc) hs
  rw [hi.fail_eq]
  unfold CheckFailed
  have hfin : g.Finished ≠ g.board.BoxPos0.length := by
    rw [hi.fin_eq]
    unfold countFinished
    have hlt := @length_filter_lt_of_mem _ (fun bx2 =>
      CheckFloor g.board bx2.1 bx2.2 && decide (bx2 ∈ g.board.GoalPos)) _ _ hmem
      (by simp [hgoal])
    have hbl := hi.box_len
    omega
  rw [if_neg hfin]
  by_cases hdir : g.Directions = 0
  · rw [if_pos hdir]
  · rw [if_neg hdir]
    have hpl : bx ≠ g.PlayerPos := by
      rintro rfl
      exact hi.player_not_box hmem
    have hany : (g.BoxPos.any fun bx2 => boxTrap g.board g.BoxPos g.PlayerPos bx2) = true := by
      rw [List.any_eq_true]
      exact ⟨bx, hmem, boxTrap_of_corner hmem hgoal hpl hv hh⟩
    rw [if_pos hany]

/-- The corner-deadlock example maze `&$` over `*.`: the box starts in
the top-left corner off its goal. -/
def mazeC9 : List Char := ['&', '$', '\n', '*', '.']

/-- The game built from `mazeC9`. -/
def gC9 : Game := ((construct 64 mazeC9).toOption).getD dummyGame

theorem corner_deadlock_witness :
    ((0, 0) : Pos) ∈ gC9.BoxPos ∧ gC9.Failed = true :=
  ⟨by decide,
    corner_deadlock 64 mazeC9 gC9 gC9 (0, 0) rfl (Steps.refl gC9)
      (by decide) (by decide) (Or.inl (by decide)) (Or.inl (by decide))⟩

instance posLtAntisymm : IsAntisymm Pos (fun a b => posLt a b = true) :=
  ⟨fun _ _ h1 h2 => absurd h2 (posLt_asymm h1)⟩

/-- Claim C3: in every reachable state the cached encoded state equals
the canonical encoding of the current player cell and box set (player
floor index in the low `FloorBits`-wide field, the boxes' floor indices
in successive higher fields in ascending position order), so any two
reachable states with the same player cell and the same box-cell set
have bit-identical encoded states regardless of history. -/
theorem encode_canonical (sb : Nat) (maze : List Char) (g₀ g₁ g₂ : Game)
    (hc : construct sb maze = .ok g₀) (hs₁ : Steps g₀ g₁) (hs₂ : Steps g₀ g₂)
    (hp : g₁.PlayerPos = g₂.PlayerPos) (hb : ∀ p : Pos, p ∈ g₁.BoxPos ↔ p ∈ g₂.BoxPos) :
    g₁.State = computeState g₁.board g₁.PlayerPos g₁.BoxPos ∧ g₁.State = g₂.State := by
  have hi₁ := inv_steps (inv_construct hc) hs₁
  have hi₂ := inv_steps (inv_construct hc) hs₂
  refine ⟨hi₁.st_eq, ?_⟩
  have hbl : g₁.BoxPos = g₂.BoxPos :=
    List.eq_of_perm_of_sorted
      ((List.perm_ext_iff_of_nodup (sortedPos_nodup hi₁.box_sorted)
        (sortedPos_nodup hi₂.box_sorted)).mpr hb)
      hi₁.box_sorted hi₂.box_sorted
  rw [hi₁.st_eq, hi₂.st_eq, hbl, hp, steps_board hs₁, steps_board hs₂]

theorem encode_canonical_witness :
    (DoMove gEx Right).1.State =
      computeState (DoMove gEx Right).1.board (DoMove gEx Right).1.PlayerPos
        (DoMove gEx Right).1.BoxPos ∧
    (DoMove gEx Right).1.State = (DoMove (DoRestart gEx) Right).1.State :=
  encode_canonical 64 mazeEx gEx (DoMove gEx Right).1 (DoMove (DoRestart gEx) Right).1
    rfl (Steps.move gEx gEx Right (Steps.refl gEx))
    (Steps.move gEx (DoRestart gEx) Right (Steps.restart gEx gEx (Steps.refl gEx)))
    (by decide) (fun p => Iff.rfl)

/-- The direction list `{Up, Left, Right, Down}` that the engine's
`UpdateData` and the trainer's bootstrap fold iterate over, in the
source's fixed order. -/
def AllDirections : List Nat := [Up, Left, Right, Down]

end Sokoban

namespace SokobanQLearning

open Sokoban

/-- A Q-table row: the four action-value slots for Up, Left, Right, Down.
`RealType` is a template parameter in the C++; the embedding instantiates
it with `ℚ`, an exact ordered field. -/
abbrev QRow := ℚ × ℚ × ℚ × ℚ

/-- The zero row a fresh `std::unordered_map` entry value-initialises. -/
def zeroRow : QRow := (0, 0, 0, 0)

/-- The sparse Q-table `std::unordered_map<StateType, std::array<RealType, 4>>`,
as an association list with at most one entry per state key. -/
def QTable := List (Nat × QRow)

/-- `_map.count`/`_map.at` combined: the stored row of a state, if any. -/
def qFind : QTable → Nat → Option QRow
  | [], _ => none
  | (s, r) :: m, st => if st = s then some r else qFind m st

/-- `QTable::Get(state)`: the stored row, or the zero row for an unseen
state. -/
def qGetRow (m : QTable) (st : Nat) : QRow := (qFind m st).getD zeroRow

/-- `QTable::Get(state, action)`: 0 for an unseen state, the slot selected
by the switch for the four direction values, 0 for any other action. -/
def qGet (m : QTable) (st : Nat) (a : Nat) : ℚ :=
  match qFind m st with
  | none => 0
  | some r =>
    if a = Up then r.1
    else if a = Left then r.2.1
    else if a = Right then r.2.2.1
    else if a = Down then r.2.2.2
    else 0

/-- Writing one slot of a row (the `_map[state][i] = value` assignment). -/
def setSlot (r : QRow) (a : Nat) (v : ℚ) : QRow :=
  if a = Up then (v, r.2.1, r.2.2.1, r.2.2.2)
  else if a = Left then (r.1, v, r.2.2.1, r.2.2.2)
  else if a = Right then (r.1, r.2.1, v, r.2.2.2)
  else if a = Down then (r.1, r.2.1, r.2.2.1, v)
  else r

/-- Replace the entry of a state key, creating it if absent
(`std::unordered_map::operator[]`). -/
def qReplace : QTable → Nat → QRow → QTable
  | [], st, r => [(st, r)]
  | (s, r0) :: m, st, r => if st = s then (st, r) :: m else (s, r0) :: qReplace m st r

/-- `QTable::Set(state, action, value)`: the switch writes one slot of the
(created-on-demand) row for the four direction values and does nothing at
all for any other action value. -/
def qSet (m : QTable) (st : Nat) (a : Nat) (v : ℚ) : QTable :=
  if a = Up ∨ a = Left ∨ a = Right ∨ a = Down then
    qReplace m st (setSlot (qGetRow m st) a v)
  else m

/-- `actions & -actions` on the `uint8` direction type: the lowest set
bit (`256 - n` is the two's complement of `n` in 8 bits). -/
def lowBit (n : Nat) : Nat := n &&& (256 - n)

/-- The `while (random_choice--) actions_remain &= actions_remain - 1`
loop of the random branch of `FindAction`. -/
def clearLow : Nat → Nat → Nat
  | n, 0 => n
  | n, k + 1 => clearLow (n &&& (n - 1)) k

/-- The scan state of the `while (actions_remain)` loop in `FindAction`. -/
structure LoopOut where
  allSame : Bool
  count : Nat
  maxQ : ℚ
  choice : Nat
deriving Repr, DecidableEq

/-- The `while (actions_remain)` loop of `FindAction`, entered with the
current remaining mask and the Q-value of the previously scanned action.
Each iteration clears the lowest set bit, so the mask value itself is a
sufficient structural fuel; the exhaustion branch is unreachable. -/
def findLoop (Qg : Nat → ℚ) : Nat → Nat → Bool → Nat → ℚ → ℚ → Nat → LoopOut
  | 0, _, allSame, count, _, maxQ, choice => ⟨allSame, count, maxQ, choice⟩
  | fuel + 1, remain, allSame, count, lastQ, maxQ, choice =>
    if remain = 0 then ⟨allSame, count, maxQ, choice⟩
    else
      let cur := lowBit remain
      let curQ := Qg cur
      let allSame2 := allSame && decide (lastQ = curQ)
      let next := if curQ > maxQ then (curQ, cur) else (maxQ, choice)
      findLoop Qg fuel (remain &&& (remain - 1)) allSame2 (count + 1) curQ next.1 next.2

/-- `SokobanQLearning::FindAction`, with the two random draws of the C++
passed in as arguments: `random` is the uniform `[0,1)` real draw and
`randChoice` the uniform integer draw over `0 .. action_count - 1` (only
the branch that the C++ reaches consumes the corresponding draw).
`Qg d` stands for `Q.Get(state, d)` at the fixed current state. -/
def FindAction (eps random : ℚ) (randChoice : Nat) (actions : Nat) (Qg : Nat → ℚ) : Nat :=
  if actions = 0 then NoDirection
  else
    let last := lowBit actions
    let remain := actions &&& (actions - 1)
    let out := findLoop Qg actions remain true 1 (Qg last) (Qg last) last
    if out.count = 1 then actions
    else if out.allSame || random < eps then lowBit (clearLow actions randChoice)
    else out.choice

/-- `SokobanQLearning::TrainResult` (the printable row data). -/
structure TrainResult where
  Action : Nat
  LastState : Nat
  OldRow : QRow
  NewRow : QRow
deriving Repr, DecidableEq

/-- The bootstrap fold of `Train`: starting from the fallback floor, take
the maximum with `Q.Get(state, d)` over every legal direction `d`. -/
def trainBootstrap (fallback : ℚ) (actions : Nat) (Qg : Nat → ℚ) : ℚ :=
  AllDirections.foldl (fun m d => if actions &&& d ≠ 0 then max m (Qg d) else m) fallback

/-- `SokobanQLearning::Train`: one Q-learning step on the game and the
Q-table, returning the new game state, the new table and the result
record.  Parameter order after the random draws matches the C++:
epsilon, alpha, gamma, retrace_penalty, push_reward, goal_reward,
failure_penalty, success_reward. -/
def Train (g : Game) (Q : QTable) (random : ℚ) (randChoice : Nat)
    (eps alpha gamma retrace push goal failp succr : ℚ) :
    Game × QTable × TrainResult :=
  let last_state := g.State
  let old_row := qGetRow Q last_state
  if g.Succeeded || g.Failed then
    (DoRestart g, Q, ⟨NoDirection, last_state, old_row, old_row⟩)
  else
    let last_finished := g.Finished
    let last_action := FindAction eps random randChoice g.Directions (qGet Q last_state)
    let mv := DoMove g last_action
    let g2 := mv.1
    let pushed := mv.2
    let state := g2.State
    let reward0 : ℚ := goal * ((g2.Finished : ℚ) - (last_finished : ℚ))
    let reward1 := if state ∈ g2.StateHistory then reward0 - retrace else reward0
    let reward2 := if pushed then reward1 + push else reward1
    let reward3 := if g2.Succeeded then reward2 + succr else reward2
    let reward := if g2.Failed then reward3 - failp else reward3
    let actions := g2.Directions
    let fallback := -(retrace + failp + goal * (g2.board.BoxPos0.length : ℚ))
    let maxQ := trainBootstrap fallback actions (qGet Q state)
    let Q2 := qSet Q last_state last_action
      ((1 - alpha) * qGet Q last_state last_action + alpha * (reward + gamma * maxQ))
    (g2, Q2, ⟨last_action, last_state, old_row, qGetRow Q2 last_state⟩)

/-- The legal directions of a bitmask in the fixed Up, Left, Right, Down
scan order. -/
def legalDirs (actions : Nat) : List Nat :=
  AllDirections.filter (fun d => actions &&& d ≠ 0)

/-- The maximum Q-value over the legal directions (0 if none is legal). -/
def maxLegalQ (actions : Nat) (Qg : Nat → ℚ) : ℚ :=
  match legalDirs actions with
  | [] => 0
  | d :: ds => ds.foldl (fun m e => max m (Qg e)) (Qg d)

/-- The first direction in scan order whose Q-value attains the maximum
over the legal directions. -/
def firstMaxDir (actions : Nat) (Qg : Nat → ℚ) : Nat :=
  ((legalDirs actions).find? (fun d => Qg d = maxLegalQ actions Qg)).getD NoDirection

/-- Claim C6 (amended): the bootstrap value `Train` uses is the fallback
floor `−(retrace_penalty + failure_penalty + goal_reward × box_count)`
when no direction is legal in the post-move state, and otherwise the
maximum of that fallback floor and the Q-values of the legal directions
(the fallback always participates in the fold, so a legal Q-value below
the floor is clamped to the floor rather than returned). -/
theorem train_bootstrap_eq (fallback : ℚ) (actions : Nat) (Qg : Nat → ℚ) :
    trainBootstrap fallback actions Qg =
      if legalDirs actions = [] then fallback else max fallback (maxLegalQ actions Qg) := by
  by_cases c1 : actions &&& Up = 0 <;> by_cases c2 : actions &&& Left = 0 <;>
    by_cases c3 : actions &&& Right = 0 <;> by_cases c4 : actions &&& Down = 0 <;>
      simp [trainBootstrap, maxLegalQ, legalDirs, AllDirections, c1, c2, c3, c4, max_assoc]

/-- The Q-table of the counterexample below: the post-push state of `gEx`
(key 9) carries Q-values far below the bootstrap fallback floor. -/
def Q6 : QTable := [(9, (0, -1000, -1000, 0))]

/-- Counterexample to claim C6 as stated: a `Train` invocation on the
non-terminal initial state of `mazeEx` (with `retrace_penalty`,
`failure_penalty`, `goal_reward` all 1, so the fallback floor is `-3`)
in which the post-move state has legal directions, yet the bootstrap the
trainer folds up is the fallback `-3` and not the maximum legal Q-value
`-1000`. -/
theorem train_bootstrap_counterexample :
    gEx.Succeeded = false ∧ gEx.Failed = false ∧
    FindAction 0 (1/2) 0 gEx.Directions (qGet Q6 gEx.State) = Right ∧
    legalDirs (DoMove gEx Right).1.Directions ≠ [] ∧
    trainBootstrap (-(1 + 1 + 1 * ((DoMove gEx Right).1.board.BoxPos0.length : ℚ)))
        (DoMove gEx Right).1.Directions (qGet Q6 (DoMove gEx Right).1.State) = -3 ∧
    maxLegalQ (DoMove gEx Right).1.Directions (qGet Q6 (DoMove gEx Right).1.State) = -1000 := by
  refine ⟨rfl, rfl, by decide, by decide, ?_, rfl⟩
  have hc : ((DoMove gEx Right).1.board.BoxPos0.length : ℚ) = 1 := rfl
  rw [hc]
  norm_num
  rfl

theorem qFind_qReplace (m : QTable) (st : Nat) (r : QRow) (s2 : Nat) :
    qFind (qReplace m st r) s2 = if s2 = st then some r else qFind m s2 := by
  induction m with
  | nil =>
    by_cases h : s2 = st <;> simp [qReplace, qFind, h]
  | cons hd m ih =>
    rcases hd with ⟨s, r0⟩
    by_cases hst : st = s
    · subst hst
      by_cases h2 : s2 = st <;> simp [qReplace, qFind, h2]
    · by_cases h2 : s2 = s
      · subst h2
        have hne : s2 ≠ st := fun he => hst he.symm
        simp [qReplace, qFind, hst, hne]
      · by_cases h3 : s2 = st
        · subst h3
          simp [qReplace, qFind, hst, h2, ih]
        · simp [qReplace, qFind, hst, h2, h3, ih]

theorem qGet_eq (m : QTable) (st a : Nat) :
    qGet m st a =
      (if a = Up then (qGetRow m st).1
       else if a = Left then (qGetRow m st).2.1
       else if a = Right then (qGetRow m st).2.2.1
       else if a = Down then (qGetRow m st).2.2.2
       else 0) := by
  unfold qGet qGetRow
  cases qFind m st with
  | none => split_ifs <;> rfl
  | some r => rfl

theorem qGetRow_qSet (m : QTable) (st a : Nat) (v : ℚ)
    (ha : a = Up ∨ a = Left ∨ a = Right ∨ a = Down) :
    qGetRow (qSet m st a v) st = setSlot (qGetRow m st) a v := by
  unfold qSet
  rw [if_pos ha]
  unfold qGetRow
  rw [qFind_qReplace, if_pos rfl]
  rfl

theorem qGet_qSet_same (m : QTable) (st a : Nat) (v : ℚ)
    (ha : a = Up ∨ a = Left ∨ a = Right ∨ a = Down) :
    qGet (qSet m st a v) st a = v := by
  rw [qGet_eq, qGetRow_qSet m st a v ha]
  rcases ha with rfl | rfl | rfl | rfl <;>
    simp [setSlot, Up, Left, Right, Down]

theorem qGet_qSet_other (m : QTable) (st a : Nat) (v : ℚ) (s2 a2 : Nat)
    (h : ¬(s2 = st ∧ a2 = a)) :
    qGet (qSet m st a v) s2 a2 = qGet m s2 a2 := by
  unfold qSet
  split
  · rename_i ha
    by_cases hs : s2 = st
    · subst hs
      have ha2 : a2 ≠ a := fun he => h ⟨rfl, he⟩
      have hq : qGetRow (qReplace m s2 (setSlot (qGetRow m s2) a v)) s2 =
          setSlot (qGetRow m s2) a v := by
        unfold qGetRow
        rw [qFind_qReplace, if_pos rfl]
        rfl
      rw [qGet_eq, qGet_eq, hq]
      rcases ha with rfl | rfl | rfl | rfl <;>
        · simp only [setSlot, Up, Left, Right, Down]
          split_ifs <;> simp_all [Up, Left, Right, Down]
    · rw [qGet_eq, qGet_eq]
      have hq2 : qGetRow (qReplace m st (setSlot (qGetRow m st) a v)) s2 = qGetRow m s2 := by
        unfold qGetRow
        rw [qFind_qReplace, if_neg hs]
      rw [hq2]
  · rfl

/-- In a consistent non-terminal state the legal-direction mask is never
empty: if it were, `CheckFailed` would have returned true. -/
theorem directions_ne_zero {g : Game} (hi : Inv g)
    (hns : g.Succeeded = false) (hnf : g.Failed = false) : g.Directions ≠ 0 := by
  intro h0
  have hfin : g.Finished ≠ g.board.BoxPos0.length := by
    rw [hi.suc_eq] at hns
    simpa using hns
  rw [hi.fail_eq] at hnf
  unfold CheckFailed at hnf
  rw [if_neg hfin, if_pos h0] at hnf
  cases hnf

theorem findLoop_count_le (Qg : Nat → ℚ) :
    ∀ (fuel remain : Nat) (allSame : Bool) (count : Nat) (lastQ maxQ : ℚ) (choice : Nat),
      count ≤ (findLoop Qg fuel remain allSame count lastQ maxQ choice).count := by
  intro fuel
  induction fuel with
  | zero =>
    intro remain allSame count lastQ maxQ choice
    exact Nat.le_refl _
  | succ n ih =>
    intro remain allSame count lastQ maxQ choice
    rw [findLoop]
    by_cases h0 : remain = 0
    · rw [if_pos h0]
    · rw [if_neg h0]
      exact Nat.le_trans (Nat.le_succ count) (ih _ _ _ _ _ _)

theorem findLoop_count_two (Qg : Nat → ℚ) (n remain : Nat) (allSame : Bool)
    (lastQ maxQ : ℚ) (choice : Nat) (h0 : remain ≠ 0) :
    2 ≤ (findLoop Qg (n + 1) remain allSame 1 lastQ maxQ choice).count := by
  rw [findLoop, if_neg h0]
  exact findLoop_count_le Qg n _ _ _ _ _ _

theorem findLoop_choice_mem (Qg : Nat → ℚ) (actions : Nat) (h16 : actions < 16) :
    ∀ (fuel remain : Nat) (allSame : Bool) (count : Nat) (lastQ maxQ : ℚ) (choice : Nat),
      remain < 16 → remain &&& actions = remain → choice ∈ legalDirs actions →
      (findLoop Qg fuel remain allSame count lastQ maxQ choice).choice ∈ legalDirs actions := by
  have hbit : ∀ a < 16, ∀ r < 16, (r &&& a = r ∧ r ≠ 0) → lowBit r ∈ legalDirs a := by decide
  have hsub : ∀ r < 16, (r &&& (r - 1)) &&& r = r &&& (r - 1) ∧ r &&& (r - 1) < 16 := by decide
  intro fuel
  induction fuel with
  | zero =>
    intro remain allSame count lastQ maxQ choice hr16 hra hch
    exact hch
  | succ n ih =>
    intro remain allSame count lastQ maxQ choice hr16 hra hch
    rw [findLoop]
    by_cases h0 : remain = 0
    · rw [if_pos h0]
      exact hch
    · rw [if_neg h0]
      have hcur : lowBit remain ∈ legalDirs actions :=
        hbit actions h16 remain hr16 ⟨hra, h0⟩
      have hs1 : (remain &&& (remain - 1)) &&& remain = remain &&& (remain - 1) :=
        (hsub remain hr16).1
      have hs2 : remain &&& (remain - 1) < 16 := (hsub remain hr16).2
      have hsa : (remain &&& (remain - 1)) &&& actions = remain &&& (remain - 1) := by
        have h1 : remain &&& (remain - 1) ≤ remain - 1 := Nat.and_le_right
        calc (remain &&& (remain - 1)) &&& actions
            = ((remain &&& (remain - 1)) &&& remain) &&& actions := by rw [hs1]
          _ = (remain &&& (remain - 1)) &&& (remain &&& actions) := by
              rw [Nat.and_assoc]
          _ = remain &&& (remain - 1) := by rw [hra, hs1]
      by_cases hcmp : Qg (lowBit remain) > maxQ
      · simp only [hcmp, if_true]
        exact ih _ _ _ _ _ _ hs2 hsa hcur
      · simp only [hcmp, if_false]
        exact ih _ _ _ _ _ _ hs2 hsa hch

/-- The action `FindAction` returns is always one of the currently legal
directions, provided the integer draw is within the range the C++
distribution guarantees. -/
theorem findAction_mem (eps random : ℚ) (randChoice : Nat) (actions : Nat) (Qg : Nat → ℚ)
    (h16 : actions < 16) (h0 : actions ≠ 0)
    (hrc : randChoice < (legalDirs actions).length) :
    FindAction eps random randChoice actions Qg ∈ legalDirs actions := by
  have hlow : ∀ a < 16, a ≠ 0 → lowBit a ∈ legalDirs a := by decide
  have hsingle : ∀ a < 16, (a ≠ 0 ∧ a &&& (a - 1) = 0) → a ∈ legalDirs a := by decide
  have hlen4 : ∀ a < 16, (legalDirs a).length ≤ 4 := by decide
  have hpick : ∀ a < 16, ∀ rc < 4, rc < (legalDirs a).length →
      lowBit (clearLow a rc) ∈ legalDirs a := by decide
  have hsub : ∀ r < 16, (r &&& (r - 1)) &&& r = r &&& (r - 1) ∧ r &&& (r - 1) < 16 := by decide
  unfold FindAction
  rw [if_neg h0]
  by_cases hc1 : (findLoop Qg actions (actions &&& (actions - 1)) true 1
      (Qg (lowBit actions)) (Qg (lowBit actions)) (lowBit actions)).count = 1
  · rw [if_pos hc1]
    by_cases hrem : actions &&& (actions - 1) = 0
    · exact hsingle actions h16 ⟨h0, hrem⟩
    · exfalso
      have h2 := findLoop_count_two Qg (actions - 1) (actions &&& (actions - 1)) true
        (Qg (lowBit actions)) (Qg (lowBit actions)) (lowBit actions) hrem
      have hs : actions - 1 + 1 = actions := Nat.succ_pred_eq_of_pos (Nat.pos_of_ne_zero h0)
      rw [hs, hc1] at h2
      omega
  · rw [if_neg hc1]
    by_cases hrand : ((findLoop Qg actions (actions &&& (actions - 1)) true 1
        (Qg (lowBit actions)) (Qg (lowBit actions)) (lowBit actions)).allSame ||
        decide (random < eps)) = true
    · rw [if_pos hrand]
      have hrc4 : randChoice < 4 := Nat.lt_of_lt_of_le hrc (hlen4 actions h16)
      exact hpick actions h16 randChoice hrc4 hrc
    · rw [if_neg hrand]
      exact findLoop_choice_mem Qg actions h16 actions (actions &&& (actions - 1)) true 1
        (Qg (lowBit actions)) (Qg (lowBit actions)) (lowBit actions)
        (hsub actions h16).2 (by
          have := (hsub actions h16).1
          calc (actions &&& (actions - 1)) &&& actions = actions &&& (actions - 1) := this)
        (hlow actions h16 h0)

/-- Claim C8: a `Train` invocation on a non-terminal state with selected
action `a` moving the game from `g` to `g2` stores
`Q[s][a] = (1 − α)·Q[s][a] + α·(reward + γ·bootstrap)` where the reward
is `goal_reward × Δfinished + push_reward·[pushed] − retrace_penalty·[new
state visited] + success_reward·[succeeded] − failure_penalty·[failed]`,
and leaves every other Q-table entry unchanged.  The hypothesis on
`randChoice` reflects the support of the C++ integer distribution. -/
theorem train_update (g : Game) (Q : QTable) (random : ℚ) (randChoice : Nat)
    (eps alpha gamma retrace push goal failp succr : ℚ) (a : Nat) (g2 : Game) (pushed : Bool)
    (hi : Inv g) (hns : g.Succeeded = false) (hnf : g.Failed = false)
    (hrc : randChoice < (legalDirs g.Directions).length)
    (ha : a = FindAction eps random randChoice g.Directions (qGet Q g.State))
    (hmv : DoMove g a = (g2, pushed)) :
    (Train g Q random randChoice eps alpha gamma retrace push goal failp succr).1 = g2 ∧
    qGet (Train g Q random randChoice eps alpha gamma retrace push goal failp succr).2.1
        g.State a =
      (1 - alpha) * qGet Q g.State a +
        alpha * ((goal * ((g2.Finished : ℚ) - (g.Finished : ℚ)) +
          (if pushed = true then push else 0) -
          (if g2.State ∈ g2.StateHistory then retrace else 0) +
          (if g2.Succeeded = true then succr else 0) -
          (if g2.Failed = true then failp else 0)) +
          gamma * trainBootstrap (-(retrace + failp + goal * (g2.board.BoxPos0.length : ℚ)))
            g2.Directions (qGet Q g2.State)) ∧
    (∀ s2 a2 : Nat, ¬(s2 = g.State ∧ a2 = a) →
      qGet (Train g Q random randChoice eps alpha gamma retrace push goal failp succr).2.1
          s2 a2 = qGet Q s2 a2) := by
  have h16 : g.Directions < 16 := by
    rw [hi.dir_eq]
    exact computeDirections_lt _ _ _
  have hne0 := directions_ne_zero hi hns hnf
  have hmem := findAction_mem eps random randChoice g.Directions (qGet Q g.State) h16 hne0 hrc
  rw [← ha] at hmem
  have ha4 : a = Up ∨ a = Left ∨ a = Right ∨ a = Down := by
    simp only [legalDirs] at hmem
    have h1 := (List.mem_filter.mp hmem).1
    simpa [AllDirections] using h1
  have hcond : ¬((g.Succeeded || g.Failed) = true) := by
    simp [hns, hnf]
  simp only [Train]
  rw [if_neg hcond, ← ha, hmv]
  refine ⟨rfl, ?_, ?_⟩
  · rw [qGet_qSet_same Q g.State a _ ha4]
    dsimp only
    split_ifs <;> ring
  · intro s2 a2 hne
    exact qGet_qSet_other Q g.State a _ s2 a2 hne

theorem train_update_witness :
    (Train gEx Q6 (1/2) 0 0 1 1 1 1 1 1 0).1 = (DoMove gEx Right).1 ∧
    qGet (Train gEx Q6 (1/2) 0 0 1 1 1 1 1 1 0).2.1 gEx.State Right =
      (1 - 1) * qGet Q6 gEx.State Right +
        1 * ((1 * (((DoMove gEx Right).1.Finished : ℚ) - (gEx.Finished : ℚ)) +
          (if (DoMove gEx Right).2 = true then 1 else 0) -
          (if (DoMove gEx Right).1.State ∈ (DoMove gEx Right).1.StateHistory then 1 else 0) +
          (if (DoMove gEx Right).1.Succeeded = true then 0 else 0) -
          (if (DoMove gEx Right).1.Failed = true then 1 else 0)) +
          1 * trainBootstrap (-(1 + 1 + 1 * ((DoMove gEx Right).1.board.BoxPos0.length : ℚ)))
            (DoMove gEx Right).1.Directions (qGet Q6 (DoMove gEx Right).1.State)) ∧
    (∀ s2 a2 : Nat, ¬(s2 = gEx.State ∧ a2 = Right) →
      qGet (Train gEx Q6 (1/2) 0 0 1 1 1 1 1 1 0).2.1 s2 a2 = qGet Q6 s2 a2) :=
  train_update gEx Q6 (1/2) 0 0 1 1 1 1 1 1 0 Right (DoMove gEx Right).1 true
    (inv_construct (show construct 64 mazeEx = .ok gEx from rfl)) rfl rfl (by decide)
    (by decide) rfl

/-- List view of the `FindAction` scan loop: the same state updates as
`findLoop`, driven by the explicit list of remaining directions instead
of the bitmask (no fuel and no counter). -/
def scanList (Qg : Nat → ℚ) : List Nat → Bool → ℚ → ℚ → Nat → Bool × ℚ × Nat
  | [], allSame, _, maxQ, choice => (allSame, maxQ, choice)
  | d :: ds, allSame, lastQ, maxQ, choice =>
    scanList Qg ds (allSame && decide (lastQ = Qg d)) (Qg d)
      (if Qg d > maxQ then Qg d else maxQ) (if Qg d > maxQ then d else choice)

/-- The `all_same` chain: consecutive Q-values compared along the scan. -/
def chainEq (Qg : Nat → ℚ) : ℚ → List Nat → Bool
  | _, [] => true
  | lastQ, d :: ds => decide (lastQ = Qg d) && chainEq Qg (Qg d) ds

/-- The maximum Q-value over a direction list (the list form of
`maxLegalQ`). -/
def maxListQ (Qg : Nat → ℚ) : List Nat → ℚ
  | [] => 0
  | d :: ds => ds.foldl (fun m e => max m (Qg e)) (Qg d)

/-- The first direction of a list attaining the maximum Q-value (the
list form of `firstMaxDir`). -/
def firstMaxList (Qg : Nat → ℚ) (l : List Nat) : Nat :=
  (l.find? (fun d => Qg d = maxListQ Qg l)).getD NoDirection

theorem le_foldl_max (Qg : Nat → ℚ) :
    ∀ (ds : List Nat) (b : ℚ), b ≤ ds.foldl (fun m e => max m (Qg e)) b := by
  intro ds
  induction ds with
  | nil => intro b; exact le_refl b
  | cons d ds ih =>
    intro b
    exact le_trans (le_max_left b (Qg d)) (ih (max b (Qg d)))

theorem mem_le_foldl_max (Qg : Nat → ℚ) :
    ∀ (ds : List Nat) (b : ℚ) (x : Nat), x ∈ ds →
      Qg x ≤ ds.foldl (fun m e => max m (Qg e)) b := by
  intro ds
  induction ds with
  | nil => intro b x hx; cases hx
  | cons d ds ih =>
    intro b x hx
    rcases List.mem_cons.mp hx with rfl | hx
    · exact le_trans (le_max_right b (Qg x)) (le_foldl_max Qg ds (max b (Qg x)))
    · exact ih (max b (Qg d)) x hx

theorem maxListQ_bound {Qg : Nat → ℚ} {P : List Nat} {x : Nat} (hx : x ∈ P) :
    Qg x ≤ maxListQ Qg P := by
  cases P with
  | nil => cases hx
  | cons p ps =>
    rcases List.mem_cons.mp hx with rfl | hx
    · exact le_foldl_max Qg ps (Qg x)
    · exact mem_le_foldl_max Qg ps (Qg p) x hx

theorem foldl_max_attained (Qg : Nat → ℚ) :
    ∀ (ds : List Nat) (b : ℚ),
      ds.foldl (fun m e => max m (Qg e)) b = b ∨
        ∃ x ∈ ds, ds.foldl (fun m e => max m (Qg e)) b = Qg x := by
  intro ds
  induction ds with
  | nil => intro b; exact Or.inl rfl
  | cons d ds ih =>
    intro b
    rcases ih (max b (Qg d)) with heq | ⟨x, hx, heq⟩
    · rcases max_choice b (Qg d) with hm | hm
      · exact Or.inl (by rw [List.foldl_cons, heq, hm])
      · exact Or.inr ⟨d, List.mem_cons_self d ds, by rw [List.foldl_cons, heq, hm]⟩
    · exact Or.inr ⟨x, List.mem_cons_of_mem d hx, by rw [List.foldl_cons, heq]⟩

theorem maxListQ_attained {Qg : Nat → ℚ} {P : List Nat} (hP : P ≠ []) :
    ∃ x ∈ P, Qg x = maxListQ Qg P := by
  cases P with
  | nil => exact absurd rfl hP
  | cons p ps =>
    rcases foldl_max_attained Qg ps (Qg p) with heq | ⟨x, hx, heq⟩
    · exact ⟨p, List.mem_cons_self p ps, heq.symm⟩
    · exact ⟨x, List.mem_cons_of_mem p hx, heq.symm⟩

theorem maxListQ_append_one {Qg : Nat → ℚ} {P : List Nat} (d : Nat) (hP : P ≠ []) :
    maxListQ Qg (P ++ [d]) = max (maxListQ Qg P) (Qg d) := by
  cases P with
  | nil => exact absurd rfl hP
  | cons p ps => simp [maxListQ, List.cons_append, List.foldl_append]

theorem ite_gt_max (a b : ℚ) : (if a < b then b else a) = max a b := by
  by_cases h : a < b
  · rw [if_pos h, max_eq_right h.le]
  · rw [if_neg h, max_eq_left (not_lt.mp h)]

theorem firstMaxList_append_one {Qg : Nat → ℚ} {P : List Nat} (d : Nat) (hP : P ≠ []) :
    firstMaxList Qg (P ++ [d]) =
      if maxListQ Qg P < Qg d then d else firstMaxList Qg P := by
  unfold firstMaxList
  rw [maxListQ_append_one d hP]
  by_cases h : maxListQ Qg P < Qg d
  · rw [if_pos h, max_eq_right h.le, List.find?_append]
    have hnone : List.find? (fun d2 => Qg d2 = Qg d) P = none := by
      rw [List.find?_eq_none]
      intro x hx
      simp only [decide_eq_true_eq]
      intro he
      exact absurd (he ▸ maxListQ_bound hx) (not_le.mpr h)
    rw [hnone]
    simp [List.find?]
  · rw [if_neg h, max_eq_left (not_lt.mp h)]
    have hsome : (List.find? (fun d2 => Qg d2 = maxListQ Qg P) P).isSome = true := by
      rw [List.find?_isSome]
      obtain ⟨x, hx, he⟩ := maxListQ_attained hP
      exact ⟨x, hx, by simpa using he⟩
    obtain ⟨y, hy⟩ := Option.isSome_iff_exists.mp hsome
    rw [List.find?_append, hy]
    rfl

theorem scanList_fst (Qg : Nat → ℚ) :
    ∀ (l : List Nat) (allSame : Bool) (lastQ maxQ : ℚ) (choice : Nat),
      (scanList Qg l allSame lastQ maxQ choice).1 = (allSame && chainEq Qg lastQ l) := by
  intro l
  induction l with
  | nil =>
    intro allSame lastQ maxQ choice
    simp [scanList, chainEq]
  | cons d ds ih =>
    intro allSame lastQ maxQ choice
    simp [scanList, chainEq, ih, Bool.and_assoc]

theorem chainEq_all {Qg : Nat → ℚ} :
    ∀ {l : List Nat} {q : ℚ}, chainEq Qg q l = true → ∀ x ∈ l, Qg x = q := by
  intro l
  induction l with
  | nil =>
    intro q _ x hx
    cases hx
  | cons d ds ih =>
    intro q h x hx
    rw [chainEq, Bool.and_eq_true, decide_eq_true_eq] at h
    rcases List.mem_cons.mp hx with rfl | hx
    · exact h.1.symm
    · rw [ih h.2 x hx]
      exact h.1.symm

theorem findLoop_eq_scanList (Qg : Nat → ℚ) :
    ∀ (n remain : Nat) (allSame : Bool) (count : Nat) (lastQ maxQ : ℚ) (choice : Nat),
      remain < 16 → (legalDirs remain).length ≤ n →
      findLoop Qg n remain allSame count lastQ maxQ choice =
        ⟨(scanList Qg (legalDirs remain) allSame lastQ maxQ choice).1,
         count + (legalDirs remain).length,
         (scanList Qg (legalDirs remain) allSame lastQ maxQ choice).2.1,
         (scanList Qg (legalDirs remain) allSame lastQ maxQ choice).2.2⟩ := by
  intro n
  induction n with
  | zero =>
    intro remain allSame count lastQ maxQ choice h16 hlen
    have hnil : legalDirs remain = [] := List.length_eq_zero.mp (Nat.le_zero.mp hlen)
    rw [hnil]
    simp [findLoop, scanList]
  | succ n ih =>
    intro remain allSame count lastQ maxQ choice h16 hlen
    by_cases h0 : remain = 0
    · subst h0
      have hnil : legalDirs 0 = [] := rfl
      rw [hnil]
      simp [findLoop, scanList]
    · have hcons : ∀ r < 16, r = 0 ∨
          legalDirs r = lowBit r :: legalDirs (r &&& (r - 1)) := by decide
      have hsub : ∀ r < 16, r &&& (r - 1) < 16 := by decide
      have hc := (hcons remain h16).resolve_left h0
      have h16s := hsub remain h16
      have hlen2 : (legalDirs (remain &&& (remain - 1))).length ≤ n := by
        rw [hc] at hlen
        exact Nat.lt_succ_iff.mp (Nat.lt_of_lt_of_le (Nat.lt_succ_self _)
          (by simpa using hlen))
      rw [findLoop, if_neg h0]
      dsimp only
      rw [ih _ _ _ _ _ _ h16s hlen2, hc]
      simp only [scanList, List.length_cons]
      by_cases hcmp : Qg (lowBit remain) > maxQ
      · simp only [if_pos hcmp, LoopOut.mk.injEq, true_and, and_true]
        omega
      · simp only [if_neg hcmp, LoopOut.mk.injEq, true_and, and_true]
        omega

theorem scanList_snd (Qg : Nat → ℚ) :
    ∀ (l P : List Nat) (allSame : Bool) (lastQ : ℚ), P ≠ [] →
      (scanList Qg l allSame lastQ (maxListQ Qg P) (firstMaxList Qg P)).2 =
        (maxListQ Qg (P ++ l), firstMaxList Qg (P ++ l)) := by
  intro l
  induction l with
  | nil =>
    intro P allSame lastQ hP
    simp [scanList]
  | cons d ds ih =>
    intro P allSame lastQ hP
    rw [scanList, ite_gt_max, ← maxListQ_append_one d hP, ← firstMaxList_append_one d hP]
    rw [ih (P ++ [d]) _ _ (by simp)]
    simp

theorem maxListQ_single (Qg : Nat → ℚ) (d : Nat) : maxListQ Qg [d] = Qg d := rfl

theorem firstMaxList_single (Qg : Nat → ℚ) (d : Nat) : firstMaxList Qg [d] = d := by
  simp [firstMaxList, maxListQ, List.find?]

theorem scanList_snd_single (Qg : Nat → ℚ) (l : List Nat) (allSame : Bool) (d : Nat) :
    (scanList Qg l allSame (Qg d) (Qg d) d).2 =
      (maxListQ Qg (d :: l), firstMaxList Qg (d :: l)) := by
  have h := scanList_snd Qg l [d] allSame (Qg d) (by simp)
  simpa [maxListQ_single, firstMaxList_single] using h

theorem maxLegalQ_eq_maxListQ (actions : Nat) (Qg : Nat → ℚ) :
    maxLegalQ actions Qg = maxListQ Qg (legalDirs actions) := by
  cases h : legalDirs actions <;> simp [maxLegalQ, maxListQ, h]

theorem firstMaxDir_eq_firstMaxList (actions : Nat) (Qg : Nat → ℚ) :
    firstMaxDir actions Qg = firstMaxList Qg (legalDirs actions) := by
  unfold firstMaxDir firstMaxList
  rw [maxLegalQ_eq_maxListQ]

/-- Claim C7: `FindAction` returns the sentinel `NoDirection` on an empty
legal-direction bitmask; returns the unique legal direction when exactly
one is legal, for every value of the two random draws (so no randomness is
consulted); and when at least two directions are legal, their Q-values are
not all equal, and the uniform `[0,1)` draw is not below ε, it returns the
first direction in the fixed Up, Left, Right, Down scan order whose
Q-value attains the maximum over the legal directions. -/
theorem findAction_spec (eps random : ℚ) (randChoice : Nat) (actions : Nat) (Qg : Nat → ℚ)
    (h16 : actions < 16) :
    (actions = 0 → FindAction eps random randChoice actions Qg = NoDirection) ∧
    (∀ d, legalDirs actions = [d] → FindAction eps random randChoice actions Qg = d) ∧
    (2 ≤ (legalDirs actions).length →
      (∃ d1 ∈ legalDirs actions, ∃ d2 ∈ legalDirs actions, Qg d1 ≠ Qg d2) →
      ¬ random < eps →
      FindAction eps random randChoice actions Qg = firstMaxDir actions Qg) := by
  have hcons16 : ∀ r < 16, r = 0 ∨
      legalDirs r = lowBit r :: legalDirs (r &&& (r - 1)) := by decide
  have hflen : ∀ a < 16, (legalDirs (a &&& (a - 1))).length ≤ a := by decide
  have hrem16 : ∀ r < 16, r &&& (r - 1) < 16 := by decide
  refine ⟨fun h0 => by simp [FindAction, h0], ?_, ?_⟩
  · intro d hd
    have h0 : actions ≠ 0 := by
      intro h
      subst h
      exact List.noConfusion (show ([] : List Nat) = d :: [] from hd)
    have hc := (hcons16 actions h16).resolve_left h0
    rw [hd] at hc
    obtain ⟨hd1, hd2⟩ := List.cons.inj hc
    have hsingle : ∀ a < 16, a = 0 ∨ legalDirs (a &&& (a - 1)) ≠ [] ∨
        lowBit a = a := by decide
    have hlb : lowBit actions = actions :=
      ((hsingle actions h16).resolve_left h0).resolve_left (fun hne => hne hd2.symm)
    simp only [FindAction]
    rw [if_neg h0]
    rw [findLoop_eq_scanList Qg actions (actions &&& (actions - 1)) true 1
      (Qg (lowBit actions)) (Qg (lowBit actions)) (lowBit actions)
      (hrem16 actions h16) (hflen actions h16)]
    dsimp only
    rw [← hd2]
    simp only [List.length_nil, Nat.add_zero, if_true]
    exact (hd1.trans hlb).symm
  · intro hlen2 hpair hrand
    have h0 : actions ≠ 0 := by
      intro h
      subst h
      simp [show legalDirs 0 = [] from rfl] at hlen2
    have hc := (hcons16 actions h16).resolve_left h0
    simp only [FindAction]
    rw [if_neg h0]
    rw [findLoop_eq_scanList Qg actions (actions &&& (actions - 1)) true 1
      (Qg (lowBit actions)) (Qg (lowBit actions)) (lowBit actions)
      (hrem16 actions h16) (hflen actions h16)]
    dsimp only
    have hcnt : 1 + (legalDirs (actions &&& (actions - 1))).length ≠ 1 := by
      have hlc : (legalDirs actions).length =
          (legalDirs (actions &&& (actions - 1))).length + 1 := by
        rw [hc, List.length_cons]
      omega
    rw [if_neg hcnt]
    have hch : chainEq Qg (Qg (lowBit actions))
        (legalDirs (actions &&& (actions - 1))) = false := by
      by_contra hne
      rw [Bool.not_eq_false] at hne
      obtain ⟨d1, hd1, d2, hd2, hq⟩ := hpair
      have hall : ∀ x ∈ legalDirs actions, Qg x = Qg (lowBit actions) := by
        intro x hx
        rw [hc] at hx
        rcases List.mem_cons.mp hx with rfl | hx
        · rfl
        · exact chainEq_all hne x hx
      exact hq ((hall d1 hd1).trans (hall d2 hd2).symm)
    rw [scanList_fst, hch, decide_eq_false hrand]
    simp only [Bool.and_false, Bool.or_false]
    rw [if_neg (by decide)]
    rw [scanList_snd_single]
    dsimp only
    rw [← hc, firstMaxDir_eq_firstMaxList]

/-- The Q-valuation of the `findAction_spec` witness: `Right` carries
value 2, everything else 0. -/
def QgW : Nat → ℚ := fun d => if d = 4 then 2 else 0

/-- Witness for `findAction_spec`: on the mask 5 (Up and Right legal)
with distinct Q-values and a draw not below ε, the selector returns the
greedy first maximiser. -/
theorem findAction_spec_witness :
    5 < 16 ∧ FindAction 0 (1/2) 0 5 QgW = firstMaxDir 5 QgW :=
  ⟨by decide,
    (findAction_spec 0 (1/2) 0 5 QgW (by decide)).2.2 (by decide)
      ⟨1, by decide, 4, by decide, by norm_num [QgW]⟩ (by norm_num)⟩

end SokobanQLearning
